import Mathlib

/-!
Verification development for the Agentic-RAG documentation pipeline.

The Python sources are shallowly embedded as Lean definitions:

* `src/markdown_writer.py` (`MarkdownWriter.write_section`,
  `MarkdownWriter.reorder_sections`) — documents are `List Char`; the regex
  operations `pattern.sub` (non-greedy `BEGIN .*? END` with `re.DOTALL`),
  `re.search` for the first generic `BEGIN` marker, and `finditer` over the
  block pattern `<!-- BEGIN: auto:([^ ]+) --> .*? <!-- END: auto:\1 -->`
  are implemented as executable scanners with the exact left-to-right,
  lazy-match semantics of the `re` module.
* `src/agentic_rag_pipeline.py` (`run_agent_loop`) — the completion service
  and the standard-library JSON parser are external collaborators; they are
  modelled as an event stream `Nat → LMEvent` and an oracle
  `jsonLoads : String → Option JVal`.  Everything else (fence stripping,
  action dispatch, history, the forced fallback, the unbound-local behaviour
  of `chain`/`response` when the loop body never ran) follows the source.
* `src/util.py` (`run_indexing` diff/delete logic), `src/store_qdrant.py`
  (`QdrantStore.add`), `src/symbols_ast.py` (span hashing) — `hashlib`
  digests and `pathlib` normalisation are external and appear as function
  parameters (`md5hex`, `digest`, `pathNorm`); `uuid.UUID(hex=...)`
  canonical formatting is implemented concretely.
-/

/-! ## Generic string (List Char) utilities shared by the embeddings -/

/-- Python `str.strip()` whitespace set (ASCII part; all texts in this
development are ASCII). -/
def isPySpace (c : Char) : Bool :=
  c = ' ' || c = '\t' || c = '\n' || c = '\r' || c = '\x0b' || c = '\x0c'

/-- Drop trailing characters satisfying `isPySpace`. -/
def pyStripEnd (l : List Char) : List Char :=
  (l.reverse.dropWhile isPySpace).reverse

/-- Python `str.strip()` on a character list. -/
def pyStrip (l : List Char) : List Char :=
  pyStripEnd (l.dropWhile isPySpace)

/-- Index of the first suffix of `l` satisfying `p` (the starting index of the
first regex match when `p` tests "a match starts here"). -/
def firstIdxP (p : List Char → Bool) : List Char → Option Nat
  | [] => if p [] then some 0 else none
  | c :: t => if p (c :: t) then some 0 else (firstIdxP p t).map (· + 1)

/-- Starting index of the first occurrence of `pat` in `l`. -/
def firstOccIdx (pat : List Char) (l : List Char) : Option Nat :=
  firstIdxP (fun s => decide (pat <+: s)) l

/-! ## markdown_writer.py -/

/-- Literal prefix of every BEGIN marker (`<!-- BEGIN: auto:`). -/
def beginPre : List Char := "<!-- BEGIN: auto:".data

/-- Literal prefix of every END marker (`<!-- END: auto:`). -/
def endPre : List Char := "<!-- END: auto:".data

/-- Literal closer of both markers (a space followed by the arrow). -/
def arrowSuf : List Char := " -->".data

/-- The start marker of `write_section` (markdown_writer.py line 25). -/
def beginMarker (id : List Char) : List Char := beginPre ++ id ++ arrowSuf

/-- The end marker of `write_section` (markdown_writer.py line 26). -/
def endMarker (id : List Char) : List Char := endPre ++ id ++ arrowSuf

/-- The freshly rendered block `f"{start_marker}\n{content}\n{end_marker}"`
(markdown_writer.py line 29). -/
def newSectionText (id content : List Char) : List Char :=
  beginMarker id ++ '\n' :: content ++ '\n' :: endMarker id

/-- One step bound of `pattern.sub` for the non-greedy DOTALL pattern
`S .*? E`: fuelled scanner.  Each fired match consumes at least one
character, so `text.length` fuel is always enough (`pySub`). -/
def reSubN (S E R : List Char) : Nat → List Char → List Char
  | 0, text => text
  | fuel + 1, text =>
    match firstOccIdx S text with
    | none => text
    | some i =>
      match firstOccIdx E (text.drop (i + S.length)) with
      | none => text
      | some j =>
        text.take i ++ R ++ reSubN S E R fuel (text.drop (i + S.length + j + E.length))

/-- `re.sub` with pattern `escape(S) .*? escape(E)` (DOTALL) and literal
replacement `R`: replaces every non-overlapping lazy match, scanning left to
right (markdown_writer.py line 41). -/
def pySub (S E R text : List Char) : List Char := reSubN S E R text.length text

/-- `pattern.search(text)` succeeds iff some occurrence of `S` is followed by
an occurrence of `E` (markdown_writer.py line 38); the set of viable start
positions is downward closed, so testing the first `S` occurrence is exact. -/
def hasPatMatch (S E text : List Char) : Bool :=
  match firstOccIdx S text with
  | none => false
  | some i => (firstOccIdx E (text.drop (i + S.length))).isSome

/-- Default content of a freshly created document
(`f"# API Documentation: {file_path.stem}\n\n"`, markdown_writer.py line 23). -/
def defaultHeader (stem : List Char) : List Char :=
  "# API Documentation: ".data ++ stem ++ "\n\n".data

/-- `MarkdownWriter.write_section` (markdown_writer.py lines 13-47), acting on
the file content: `existing = none` means the file did not exist. -/
def pyWriteSection (existing : Option (List Char)) (stem id content : List Char) :
    List Char :=
  let text :=
    match existing with
    | some t => t
    | none => defaultHeader stem
  if hasPatMatch (beginMarker id) (endMarker id) text then
    pySub (beginMarker id) (endMarker id) (newSectionText id content) text
  else
    text ++ "\n\n".data ++ newSectionText id content ++ "\n\n---".data

/-- Does the regex `<!-- BEGIN: auto:.*? -->` (no DOTALL, so `.` excludes the
newline) match at the start of `text`? -/
def genericBeginAt (text : List Char) : Bool :=
  decide (beginPre <+: text) &&
    decide (arrowSuf <:+: (text.drop 17).takeWhile (· ≠ '\n'))

/-- One position of the `finditer` block pattern
`(<!-- BEGIN: auto:(?P<id>[^ ]+) -->.*?<!-- END: auto:(?P=id) -->)` (DOTALL):
if a match starts at the head of `text`, return the captured id and the match
length.  `[^ ]+` is greedy and must be followed by a literal " -->", so the
id can only be the maximal space-free run after the prefix. -/
def blockMatchLen (text : List Char) : Option (List Char × Nat) :=
  if beginPre <+: text then
    let rest := text.drop 17
    let u := rest.takeWhile (· ≠ ' ')
    if u = [] then none
    else if arrowSuf <+: rest.drop u.length then
      match firstOccIdx (endMarker u) (rest.drop (u.length + 4)) with
      | some k => some (u, 17 + u.length + 4 + k + (endMarker u).length)
      | none => none
    else none
  else none

/-- Fuelled `finditer` scanner: collect all non-overlapping block matches left
to right, resuming after each match. -/
def findBlocksN : Nat → List Char → List (List Char × List Char)
  | 0, _ => []
  | fuel + 1, text =>
    match blockMatchLen text with
    | some (u, len) => (u, text.take len) :: findBlocksN fuel (text.drop len)
    | none =>
      match text with
      | [] => []
      | _ :: t => findBlocksN fuel t

/-- All `(id, full-block-text)` matches of the block pattern in document order
(markdown_writer.py lines 70-79 before the dict is built). -/
def findBlocks (text : List Char) : List (List Char × List Char) :=
  findBlocksN text.length text

/-- Python dict built by iterated assignment from an association list: a later
binding of the same key overwrites an earlier one. -/
def pyDictGet (kvs : List (List Char × List Char)) (k : List Char) :
    Option (List Char) :=
  kvs.reverse.lookup k

/-- Python `"sep".join parts` followed by the trailing-newline fix-up of
markdown_writer.py lines 89-91. -/
def pyEnsureNl (l : List Char) : List Char :=
  if l.getLast? = some '\n' then l else l ++ ['\n']

/-- `MarkdownWriter.reorder_sections` (markdown_writer.py lines 49-94) acting
on the file content (the `file_path.exists()` guard lives outside the text
transformation). -/
def pyReorder (text : List Char) (ordered : List (List Char)) : List Char :=
  match firstIdxP genericBeginAt text with
  | none => text
  | some i =>
    let header := pyStrip (text.take i)
    let blocks := findBlocks text
    let parts := header :: ordered.filterMap (fun sid => pyDictGet blocks sid)
    pyEnsureNl (List.intercalate "\n\n".data parts)

/-! ### Canonical (writer-shaped) documents

A document is writer-shaped when it is the concatenation of marker-free text
runs and well-formed blocks whose ids contain no `<`, space, or newline.
`write_section` only ever produces such documents from such documents. -/

/-- A document segment: opaque text or one marker-delimited block. -/
inductive Seg where
  | txt (s : List Char)
  | blk (id : List Char) (content : List Char)

/-- Rendering of a segment to characters. -/
def renderSeg : Seg → List Char
  | .txt s => s
  | .blk id c => newSectionText id c

/-- Rendering of a segment list to a document. -/
def render (segs : List Seg) : List Char := (segs.map renderSeg).flatten

/-- Marker-free text: contains no `<` (hence no marker fragment). -/
def pureTxtB (s : List Char) : Bool := s.all (· ≠ '<')

/-- A well-behaved symbol id: nonempty, no `<`, no space, no newline (the
dotted-path ids of the pipeline satisfy this). -/
def saneIdB (id : List Char) : Bool :=
  !id.isEmpty && id.all (fun c => c ≠ '<' && c ≠ ' ' && c ≠ '\n')

/-- Well-formedness of one segment. -/
def Seg.okB : Seg → Bool
  | .txt s => pureTxtB s
  | .blk id c => saneIdB id && pureTxtB c

/-- Well-formedness of a whole document decomposition. -/
def canonicalB (segs : List Seg) : Bool := segs.all Seg.okB

/-- Is the segment a text run? -/
def Seg.isTxt : Seg → Bool
  | .txt _ => true
  | .blk _ _ => false

/-- Does the decomposition contain at least one block? -/
def containsAnyBlk (segs : List Seg) : Bool := segs.any (fun s => !s.isTxt)

/-- Does the decomposition contain a block with this id? -/
def containsBlk (a : List Char) (segs : List Seg) : Bool :=
  segs.any (fun s => match s with | .blk b _ => b = a | .txt _ => false)

/-- The effect of `write_section` on one segment: blocks for the written id
get the new content, everything else is untouched. -/
def updSeg (a c : List Char) : Seg → Seg
  | .txt s => .txt s
  | .blk b old => if b = a then .blk a c else .blk b old

/-- The `(id, rendered block)` association list a writer-shaped document
parses to. -/
def blockAssocR (segs : List Seg) : List (List Char × List Char) :=
  segs.filterMap fun s =>
    match s with
    | .blk b c => some (b, renderSeg (.blk b c))
    | .txt _ => none

/-- Everything before the first block open marker, as the claims define the
header ("everything before the first block's open marker"). -/
def headerBeforeMarker (text : List Char) : List Char :=
  match firstIdxP genericBeginAt text with
  | none => text
  | some i => text.take i

/-! ## agentic_rag_pipeline.py: run_agent_loop -/

/-- Parsed JSON value, as far as the loop inspects it: the loop only asks
whether `json.loads` returned a dict and what `data.get("action")` is, so
strings and dicts are structural and every other JSON shape is `other` with
its textual rendering. -/
inductive JVal where
  | str (s : String)
  | dict (fields : List (String × JVal))
  | other (text : String)

/-- Best-effort Python `str()` of a parsed value; it only ever feeds history
text and the wrapped `analysis` payload, which no claim inspects. -/
def jsonStr : JVal → String
  | .str s => s
  | .other t => t
  | .dict fs => "\x7b" ++ jsonStrFields fs ++ "\x7d"
where
  jsonStrFields : List (String × JVal) → String
  | [] => ""
  | (k, v) :: rest =>
    k ++ ": " ++ jsonStr v ++ (if rest.isEmpty then "" else ", ") ++ jsonStrFields rest

/-- One completion-service call outcome: `chain.invoke` either returns a
response string or raises.  `toolOut` is the (stringified) result the tool
dispatch would produce at this step if a tool is called; `execute_tool`
catches every exception, so it is always a plain string. -/
inductive LMEvent where
  | raise (msg : String)
  | ret (response : String) (toolOut : String)

/-- Did the call return (rather than raise)? -/
def LMEvent.isRet : LMEvent → Bool
  | .raise _ => false
  | .ret _ _ => true

/-- Python `str.strip` on a `String`. -/
def pyStripStr (s : String) : String := String.mk (pyStrip s.data)

/-- The "Basic JSON cleaning" of agentic_rag_pipeline.py lines 151-155 and
209-213: strip, drop a leading code fence, drop a trailing fence, strip. -/
def stripFences (response : String) : String :=
  let c0 := pyStripStr response
  let c1 := if c0.startsWith "```json" then c0.drop 7 else c0
  let c2 := if c1.startsWith "```" then c1.drop 3 else c1
  let c3 := if c2.endsWith "```" then c2.dropRight 3 else c2
  pyStripStr c3

/-- `AVAILABLE_TOOLS` keys (agentic_rag_pipeline.py lines 23-25). -/
def toolNames : List String := ["search_code"]

/-- Truncation of a tool result before it is stored in history
(agentic_rag_pipeline.py lines 171-174). -/
def truncTool (out : String) : String :=
  if out.length > 1000 then out.take 1000 ++ "...(truncated)" else out

/-- Loop state: the history lines and the last successfully returned
response string (Python's `response` local, `none` while still unbound). -/
structure AgentState where
  history : List String
  lastResp : Option String

/-- `data.get("args", {})`. -/
def getArgs (fields : List (String × JVal)) : JVal :=
  (fields.lookup "args").getD (.dict [])

/-- One iteration body of the `for i in range(max_steps)` loop
(agentic_rag_pipeline.py lines 147-197).  Returns `some data` when the body
executes `return data` (the FINISH branch), else the successor state.  The
audit-log writes are filesystem effects outside the returned value. -/
def agentStep (jsonLoads : String → Option JVal) (ev : LMEvent) (st : AgentState) :
    Option JVal × AgentState :=
  match ev with
  | .raise e =>
    (none, ⟨st.history ++ ["System: Error occurred: " ++ e], st.lastResp⟩)
  | .ret response toolOut =>
    let st : AgentState := ⟨st.history, some response⟩
    match jsonLoads (stripFences response) with
    | none =>
      (none, ⟨st.history ++ ["System: You produced invalid JSON. Please correct it."],
        st.lastResp⟩)
    | some data =>
      match data with
      | .dict fields =>
        match fields.lookup "action" with
        | some (.str a) =>
          if a = "FINISH" then (some data, st)
          else if a ∈ toolNames then
            (none, ⟨st.history ++
              ["Action: " ++ a ++ "\nArgs: " ++ jsonStr (getArgs fields) ++
                "\nResult: " ++ truncTool toolOut ++ "\n"], st.lastResp⟩)
          else
            (none, ⟨st.history ++ ["Error: Unknown action " ++ a], st.lastResp⟩)
        | some v =>
          (none, ⟨st.history ++ ["Error: Unknown action " ++ jsonStr v], st.lastResp⟩)
        | none =>
          (none, ⟨st.history ++ ["Error: Unknown action None"], st.lastResp⟩)
      | _ =>
        (none, ⟨st.history ++ ["System: Error occurred: AttributeError"], st.lastResp⟩)

/-- The loop over `range(max_steps)` (call number `i` consumes `events i`):
returns the early-returned payload (if any), the final state, and the number
of completion calls made. -/
def agentLoopIter (jsonLoads : String → Option JVal) (events : Nat → LMEvent) :
    Nat → Nat → AgentState → Option JVal × AgentState × Nat
  | 0, _, st => (none, st, 0)
  | remaining + 1, i, st =>
    match agentStep jsonLoads (events i) st with
    | (some data, st') => (some data, st', 1)
    | (none, st') =>
      let r := agentLoopIter jsonLoads events remaining (i + 1) st'
      (r.1, r.2.1, r.2.2 + 1)

/-- Outcome of `run_agent_loop`: a returned value or a propagated
exception. -/
inductive LoopResult where
  | ret (v : JVal)
  | raised (msg : String)

/-- The best-effort terminal wrapper
`return ("action": "FINISH", "analysis": s)` of the fallback. -/
def finishWrap (analysis : String) : JVal :=
  .dict [("action", .str "FINISH"), ("analysis", .str analysis)]

/-- `run_agent_loop` (agentic_rag_pipeline.py lines 130-226) over an abstract
completion stream, also returning the number of completion-call attempts.
When `max_steps = 0` the loop body never runs, so the Python locals `chain`
and `response` are unbound in the fallback: referencing `chain` raises, the
`except` handler then evaluates `str(response)` and the resulting
`UnboundLocalError` escapes the function. -/
def runAgentLoop (jsonLoads : String → Option JVal) (events : Nat → LMEvent)
    (max_steps : Nat) : LoopResult × Nat :=
  match agentLoopIter jsonLoads events max_steps 0 ⟨[], none⟩ with
  | (some data, _, c) => (.ret data, c)
  | (none, st, c) =>
    if max_steps = 0 then
      match st.lastResp with
      | some s => (.ret (finishWrap s), c)
      | none => (.raised "UnboundLocalError: response", c)
    else
      match events max_steps with
      | .raise _ =>
        match st.lastResp with
        | some s => (.ret (finishWrap s), c + 1)
        | none => (.raised "UnboundLocalError: response", c + 1)
      | .ret response _ =>
        match jsonLoads (stripFences response) with
        | none => (.ret (finishWrap response), c + 1)
        | some data =>
          match data with
          | .dict fields =>
            match fields.lookup "action" with
            | some (.str a) =>
              if a = "FINISH" then (.ret data, c + 1)
              else (.ret (finishWrap (jsonStr data)), c + 1)
            | some _ => (.ret (finishWrap (jsonStr data)), c + 1)
            | none => (.ret (finishWrap (jsonStr data)), c + 1)
          | _ => (.ret (finishWrap response), c + 1)

/-- A terminal payload: a dict whose `action` entry is the string FINISH. -/
def isTerminalB : JVal → Bool
  | .dict fields =>
    match fields.lookup "action" with
    | some (.str a) => a = "FINISH"
    | _ => false
  | _ => false

/-- Does this completion event make the loop body return early (a parsed dict
whose action is FINISH)?  Depends only on the event and the JSON oracle. -/
def isFinishEvent (jsonLoads : String → Option JVal) : LMEvent → Bool
  | .raise _ => false
  | .ret response _ =>
    match jsonLoads (stripFences response) with
    | some (.dict fields) =>
      match fields.lookup "action" with
      | some (.str a) => a = "FINISH"
      | _ => false
    | _ => false

/-! ## util.py run_indexing, store_qdrant.py QdrantStore.add, symbols_ast.py -/

/-- The `Symbol` dataclass of types_ast.py. -/
structure PySymbol where
  symbol_id : String
  kind : String
  file : String
  qualname : String
  parent : Option String
  start : Nat
  docstring : String
  «end» : Nat
  hash : String
deriving DecidableEq

/-- One scroll payload as run_indexing reads it: the three keys it probes
with `in`, each possibly absent. -/
structure ScrollPayload where
  symbol_id : Option String
  hash : Option String
  file : Option String
deriving DecidableEq

/-- The metadata dict upserted per symbol (util.py lines 143-150); also the
point payload in `QdrantStore.add`. -/
structure SymMeta where
  symbol_id : String
  qualname : String
  file : String
  kind : String
  hash : String
deriving DecidableEq

/-- Python dict assignment `m[k] = v` on an association list: a later binding
shadows an earlier one (`sDictGet` reads the latest). -/
def dictInsert (m : List (String × String)) (k v : String) :
    List (String × String) := m ++ [(k, v)]

/-- Python dict read (`k in m` and `m[k]` combined): latest binding wins. -/
def sDictGet (m : List (String × String)) (k : String) : Option String :=
  m.reverse.lookup k

/-- Python `set.add` modelled on an insertion-ordered list. -/
def setAdd (s : List String) (x : String) : List String :=
  if x ∈ s then s else s ++ [x]

/-- `dict of file → set(symbol_id)` insertion (util.py lines 86-89, 59-64). -/
def fileMapAdd : List (String × List String) → String → String →
    List (String × List String)
  | [], k, x => [(k, [x])]
  | (k', s) :: rest, k, x =>
    if k' = k then (k', setAdd s x) :: rest else (k', s) :: fileMapAdd rest k x

/-- `m.get(k, set())`. -/
def fileMapGet (m : List (String × List String)) (k : String) : List String :=
  (m.lookup k).getD []

/-- Building `existing_hashes` and `existing_symbols_by_file` from the scroll
payloads (util.py lines 79-89); `pathNorm` is `str(Path(.))`. -/
def buildExisting (pathNorm : String → String) (ps : List ScrollPayload) :
    List (String × String) × List (String × List String) :=
  ps.foldl
    (fun acc p =>
      match p.symbol_id, p.hash with
      | some sid, some h =>
        (dictInsert acc.1 sid h,
          match p.file with
          | some f => fileMapAdd acc.2 (pathNorm f) sid
          | none => acc.2)
      | _, _ => acc)
    ([], [])

/-- `current_symbols_by_file` (util.py lines 59-64). -/
def currentByFile (pathNorm : String → String) (syms : List PySymbol) :
    List (String × List String) :=
  syms.foldl (fun m s => fileMapAdd m (pathNorm s.file) s.symbol_id) []

/-- The per-file deletion pass (util.py lines 94-105):
`deleted = db_ids - curr_ids`, accumulated over the changed files. -/
def deletedForFiles (changed : List String)
    (existBF currBF : List (String × List String)) : List String :=
  changed.foldl
    (fun acc f =>
      acc ++ (fileMapGet existBF f).filter (fun id => id ∉ fileMapGet currBF f))
    []

/-- Is the symbol of an indexable kind
(`sym.kind in ("class", "function", "method")`, util.py line 128)? -/
def isIndexableKind (s : PySymbol) : Bool :=
  s.kind = "class" || s.kind = "function" || s.kind = "method"

/-- Has the symbol an unchanged stored hash (util.py line 124)? -/
def hashUnchanged (eh : List (String × String)) (s : PySymbol) : Bool :=
  sDictGet eh s.symbol_id = some s.hash

/-- The classification loop (util.py lines 123-130): returns
`(changed_symbols, to_embed, skipped_count)` in iteration order. -/
def classifySymbols (eh : List (String × String)) :
    List PySymbol → List PySymbol × List PySymbol × Nat
  | [] => ([], [], 0)
  | s :: rest =>
    let r := classifySymbols eh rest
    if hashUnchanged eh s then (r.1, r.2.1, r.2.2 + 1)
    else if isIndexableKind s then (s :: r.1, s :: r.2.1, r.2.2)
    else (r.1, r.2.1, r.2.2)

/-- `str(uuid.UUID(hex=h))` for a 32-hex-digit digest string: lowercase the
digits and insert the canonical dashes (8-4-4-4-12). -/
def uuidFromHex (h : String) : String :=
  let d := h.data.map Char.toLower
  String.mk (d.take 8) ++ "-" ++ String.mk ((d.drop 8).take 4) ++ "-" ++
    String.mk ((d.drop 12).take 4) ++ "-" ++ String.mk ((d.drop 16).take 4) ++
    "-" ++ String.mk (d.drop 20)

/-- Point id as derived on the deletion path of run_indexing (util.py lines
110-112): `str(uuid.UUID(hex=hashlib.md5(sid.encode("utf-8")).hexdigest()))`
with the external `hashlib` digest passed as `md5hex`. -/
def runIndexingPointId (md5hex : String → String) (sid : String) : String :=
  uuidFromHex (md5hex sid)

/-- Point id as derived on the upsert path of `QdrantStore.add`
(store_qdrant.py lines 54-57), same external digest parameter. -/
def qdrantPointId (md5hex : String → String) (symbol_id : String) : String :=
  uuidFromHex (md5hex symbol_id)

/-- A point as constructed by `QdrantStore.add` (vector type abstract). -/
structure QPoint (α : Type) where
  id : String
  vector : α
  payload : SymMeta
deriving DecidableEq

/-- `QdrantStore.add` (store_qdrant.py lines 46-68): raises `ValueError` on a
length mismatch before any point is built, otherwise upserts one point per
`(vector, metadata)` pair with the metadata dict as payload. -/
def qdrantAdd (md5hex : String → String) (vectors : List α)
    (metadatas : List SymMeta) : Except String (List (QPoint α)) :=
  if vectors.length ≠ metadatas.length then
    .error "Vectors and metadata must have same length"
  else
    .ok ((vectors.zip metadatas).map fun vm =>
      ⟨qdrantPointId md5hex vm.2.symbol_id, vm.1, vm.2⟩)

/-- Everything `run_indexing` (util.py lines 42-154) computes, given the
externally supplied changed-file list, extracted symbols, scroll outcome,
path normalisation and digest.  `texts`/`metadatas` are what would be
embedded and upserted (the store write itself is an external effect). -/
structure IndexOutcome where
  existingHashes : List (String × String)
  deletedIds : List String
  pointIdsToDelete : List String
  changedSymbols : List PySymbol
  toEmbed : List PySymbol
  skippedCount : Nat
  texts : List String
  metadatas : List SymMeta
deriving DecidableEq

/-- `run_indexing` (util.py lines 42-154).  An early return on an empty
changed-file list yields the empty outcome; a failing scroll (`.error`)
degrades to empty maps exactly as the `except` branch does (util.py lines
90-91). -/
def runIndexing (pathNorm : String → String) (md5hex : String → String)
    (changed : List String) (current : List PySymbol)
    (scroll : Except String (List ScrollPayload)) : IndexOutcome :=
  if changed = [] then ⟨[], [], [], [], [], 0, [], []⟩
  else
    let currBF := currentByFile pathNorm current
    let em :=
      match scroll with
      | .ok ps => buildExisting pathNorm ps
      | .error _ => ([], [])
    let deletedAll := deletedForFiles changed em.2 currBF
    let pids := deletedAll.map (runIndexingPointId md5hex)
    let r := classifySymbols em.1 current
    ⟨em.1, deletedAll, pids, r.1, r.2.1, r.2.2,
      r.2.1.map (fun s => s.qualname ++ ": " ++ s.docstring),
      r.2.1.map (fun s => ⟨s.symbol_id, s.qualname, s.file, s.kind, s.hash⟩)⟩

/-! ## symbols_ast.py span hashing -/

/-- The line-break set of Python `str.splitlines` (ASCII and the three
non-ASCII break characters). -/
def pyLineBreak (c : Char) : Bool :=
  c = '\n' || c = '\r' || c = '\x0b' || c = '\x0c' || c = '\x1c' ||
    c = '\x1d' || c = '\x1e' || c = '\x85' || c = '\u2028' || c = '\u2029'

/-- Helper for `pySplitlines`: accumulate the current line reversed. -/
def splitlinesGo (acc : List Char) : List Char → List (List Char)
  | [] => if acc = [] then [] else [acc.reverse]
  | '\r' :: '\n' :: t => acc.reverse :: splitlinesGo [] t
  | c :: t =>
    if pyLineBreak c then acc.reverse :: splitlinesGo [] t
    else splitlinesGo (c :: acc) t

/-- Python `str.splitlines()`. -/
def pySplitlines (l : List Char) : List (List Char) := splitlinesGo [] l

/-- `"\n".join(lines[lineno-1:end_lineno])`: the text actually digested for a
symbol spanning 1-indexed inclusive lines `[lineno, endLineno]`
(symbols_ast.py lines 51, 71, 88). -/
def spanSegment (src : List Char) (lineno endLineno : Nat) : List Char :=
  List.intercalate ['\n']
    (((pySplitlines src).drop (lineno - 1)).take (endLineno - (lineno - 1)))

/-- The extractor hash `_sha(segment)` (symbols_ast.py lines 11-13, 51-52)
with the external SHA-256 hexdigest passed as `digest`. -/
def symbolContentHash (digest : List Char → String) (src : List Char)
    (lineno endLineno : Nat) : String :=
  digest (spanSegment src lineno endLineno)

/-- The `(id, raw content)` pairs of the blocks of a writer-shaped document,
in document order. -/
def contentAssoc (segs : List Seg) : List (List Char × List Char) :=
  segs.filterMap fun s =>
    match s with
    | .blk b c => some (b, c)
    | .txt _ => none

/-- The block run of a rebuilt document: blocks joined by blank lines. -/
def blocksSegs : List (List Char × List Char) → List Seg
  | [] => []
  | [(b, c)] => [Seg.blk b c]
  | (b, c) :: rest => Seg.blk b c :: Seg.txt "\n\n".data :: blocksSegs rest

/-- The `(id, content)` pairs a reorder call keeps, in `ordered` order (the
last block of a duplicated id wins, matching the Python dict). -/
def keptPairs (segs : List Seg) (ordered : List (List Char)) :
    List (List Char × List Char) :=
  ordered.filterMap fun sid =>
    ((contentAssoc segs).reverse.lookup sid).map (fun c => (sid, c))

/-- Canonical decomposition of the document `reorder_sections` writes for a
writer-shaped input containing at least one block. -/
def reorderOutputSegs (segs : List Seg) (ordered : List (List Char)) :
    List Seg :=
  match keptPairs segs ordered with
  | [] => [Seg.txt (pyEnsureNl (pyStrip (render (segs.takeWhile Seg.isTxt))))]
  | p :: ps =>
    Seg.txt (pyStrip (render (segs.takeWhile Seg.isTxt)) ++ "\n\n".data) ::
      (blocksSegs (p :: ps) ++ [Seg.txt ['\n']])

/-! ## Scanner infrastructure lemmas -/

theorem firstIdxP_cons_false (p : List Char → Bool) (c : Char) (t : List Char)
    (h : p (c :: t) = false) :
    firstIdxP p (c :: t) = (firstIdxP p t).map (· + 1) := by
  simp [firstIdxP, h]

theorem firstIdxP_cons_true (p : List Char → Bool) (c : Char) (t : List Char)
    (h : p (c :: t) = true) : firstIdxP p (c :: t) = some 0 := by
  simp [firstIdxP, h]

theorem firstIdxP_append_pure (p : List Char → Bool) (s t : List Char)
    (hp : ∀ c u, c ≠ '<' → p (c :: u) = false) (hs : '<' ∉ s) :
    firstIdxP p (s ++ t) = (firstIdxP p t).map (· + s.length) := by
  induction s with
  | nil => cases h : firstIdxP p t <;> simp [h]
  | cons c s ih =>
    have hc : c ≠ '<' := fun h => hs (h ▸ List.mem_cons_self c s)
    have hs' : '<' ∉ s := fun h => hs (List.mem_cons_of_mem c h)
    rw [List.cons_append, firstIdxP_cons_false p c (s ++ t) (hp c _ hc), ih hs']
    cases h : firstIdxP p t <;> simp [h] <;> omega

theorem not_pre_cons_of_head_ne {x c : Char} {pat' u : List Char}
    (hc : c ≠ x) : ¬ (x :: pat') <+: (c :: u) := by
  intro h
  rw [List.cons_prefix_cons] at h
  exact hc h.1.symm

theorem firstOccIdx_append_pure (pat s t : List Char) (pat' : List Char)
    (hpat : pat = '<' :: pat') (hs : '<' ∉ s) :
    firstOccIdx pat (s ++ t) = (firstOccIdx pat t).map (· + s.length) := by
  refine firstIdxP_append_pure _ s t (fun c u hc => ?_) hs
  subst hpat
  exact decide_eq_false (not_pre_cons_of_head_ne hc)

theorem firstOccIdx_of_pre (pat l : List Char) (h : pat <+: l) :
    firstOccIdx pat l = some 0 := by
  cases l <;> simp [firstOccIdx, firstIdxP, h]

theorem firstOccIdx_nil (pat : List Char) (h : pat ≠ []) :
    firstOccIdx pat [] = none := by
  simp [firstOccIdx, firstIdxP, List.prefix_nil, h]

theorem firstOccIdx_cons_not_pre (pat : List Char) (c : Char) (t : List Char)
    (h : ¬ pat <+: (c :: t)) :
    firstOccIdx pat (c :: t) = (firstOccIdx pat t).map (· + 1) :=
  firstIdxP_cons_false _ _ _ (decide_eq_false h)

/-! ## reSubN structure lemmas -/

theorem reSubN_nil (S E R : List Char) (hS : S ≠ []) (fuel : Nat) :
    reSubN S E R fuel [] = [] := by
  cases fuel with
  | zero => rfl
  | succ f => simp [reSubN, firstOccIdx_nil S hS]

theorem reSubN_cons_not_pre (S E R : List Char) (c : Char) (t : List Char)
    (h : ¬ S <+: (c :: t)) (fuel : Nat) :
    reSubN S E R fuel (c :: t) = c :: reSubN S E R fuel t := by
  cases fuel with
  | zero => rfl
  | succ f =>
    rw [reSubN, reSubN, firstOccIdx_cons_not_pre S c t h]
    cases h2 : firstOccIdx S t with
    | none => simp
    | some i =>
      simp only [Option.map_some']
      have hd : (c :: t).drop (i + 1 + S.length) = t.drop (i + S.length) := by
        rw [show i + 1 + S.length = (i + S.length) + 1 by omega, List.drop_succ_cons]
      rw [hd]
      cases h3 : firstOccIdx E (t.drop (i + S.length)) with
      | none => simp
      | some j =>
        simp only
        have ht : (c :: t).take (i + 1) = c :: t.take i := List.take_succ_cons
        have hd2 : (c :: t).drop (i + 1 + S.length + j + E.length) =
            t.drop (i + S.length + j + E.length) := by
          rw [show i + 1 + S.length + j + E.length =
            (i + S.length + j + E.length) + 1 by omega, List.drop_succ_cons]
        rw [ht, hd2, List.cons_append, List.cons_append]

theorem reSubN_append_pure (S E R : List Char) (S' : List Char)
    (hS : S = '<' :: S') (s : List Char) (hs : '<' ∉ s) (fuel : Nat)
    (t : List Char) :
    reSubN S E R fuel (s ++ t) = s ++ reSubN S E R fuel t := by
  induction s with
  | nil => rfl
  | cons c s ih =>
    have hc : c ≠ '<' := fun h => hs (h ▸ List.mem_cons_self c s)
    have hs' : '<' ∉ s := fun h => hs (List.mem_cons_of_mem c h)
    rw [List.cons_append,
      reSubN_cons_not_pre S E R c (s ++ t) (hS ▸ not_pre_cons_of_head_ne hc) fuel,
      ih hs', List.cons_append]

/-! ## Marker structure lemmas -/

theorem beginMarker_cons (id : List Char) :
    beginMarker id = '<' :: ("!-- BEGIN: auto:".data ++ id ++ arrowSuf) := rfl

theorem endMarker_cons (id : List Char) :
    endMarker id = '<' :: ("!-- END: auto:".data ++ id ++ arrowSuf) := rfl

theorem beginMarker_cons6 (id : List Char) :
    beginMarker id = '<' :: '!' :: '-' :: '-' :: ' ' :: 'B' ::
      ("EGIN: auto:".data ++ id ++ arrowSuf) := rfl

theorem endMarker_cons6 (id : List Char) :
    endMarker id = '<' :: '!' :: '-' :: '-' :: ' ' :: 'E' ::
      ("ND: auto:".data ++ id ++ arrowSuf) := rfl

theorem beginMarker_ne_nil (id : List Char) : beginMarker id ≠ [] := by
  rw [beginMarker_cons]; exact List.cons_ne_nil _ _

theorem endMarker_ne_nil (id : List Char) : endMarker id ≠ [] := by
  rw [endMarker_cons]; exact List.cons_ne_nil _ _

theorem no_lt_mem_beginMarker_tail (id : List Char) (hid : '<' ∉ id) :
    '<' ∉ ("!-- BEGIN: auto:".data ++ id ++ arrowSuf) := by
  intro h
  rcases List.mem_append.1 h with h' | h'
  · rcases List.mem_append.1 h' with h'' | h''
    · revert h''; decide
    · exact hid h''
  · revert h'; decide

theorem no_lt_mem_endMarker_tail (id : List Char) (hid : '<' ∉ id) :
    '<' ∉ ("!-- END: auto:".data ++ id ++ arrowSuf) := by
  intro h
  rcases List.mem_append.1 h with h' | h'
  · rcases List.mem_append.1 h' with h'' | h''
    · revert h''; decide
    · exact hid h''
  · revert h'; decide

theorem append_pre_cancel (p x y : List Char) :
    (p ++ x <+: p ++ y) ↔ (x <+: y) := by
  induction p with
  | nil => simp
  | cons c p ih => simpa [List.cons_prefix_cons] using ih

theorem arrowSuf_cons : arrowSuf = ' ' :: "-->".data := rfl

theorem space_free_pre_inj (a b u v r : List Char) (ha : ' ' ∉ a)
    (hb : ' ' ∉ b) (h : (a ++ ' ' :: u) <+: (b ++ ' ' :: v) ++ r) : a = b := by
  induction a generalizing b with
  | nil =>
    cases b with
    | nil => rfl
    | cons d b' =>
      simp only [List.nil_append, List.cons_append, List.append_assoc,
        List.cons_prefix_cons] at h
      exact absurd (h.1 ▸ List.mem_cons_self d b') hb
  | cons c a' ih =>
    cases b with
    | nil =>
      simp only [List.nil_append, List.cons_append, List.append_assoc,
        List.cons_prefix_cons] at h
      exact absurd (h.1 ▸ List.mem_cons_self c a') ha
    | cons d b' =>
      simp only [List.cons_append, List.append_assoc, List.cons_prefix_cons] at h
      have ha' : ' ' ∉ a' := fun hm => ha (List.mem_cons_of_mem c hm)
      have hb' : ' ' ∉ b' := fun hm => hb (List.mem_cons_of_mem d hm)
      rw [h.1, ih b' ha' hb' (by simpa [List.append_assoc] using h.2)]

theorem beginMarker_pre_inj (a b r : List Char) (ha : ' ' ∉ a) (hb : ' ' ∉ b)
    (h : beginMarker a <+: beginMarker b ++ r) : a = b := by
  refine space_free_pre_inj a b "-->".data "-->".data r ha hb ?_
  simp only [beginMarker, List.append_assoc] at h
  have h3 := (append_pre_cancel beginPre _ _).mp h
  simpa [arrowSuf_cons, List.append_assoc] using h3

theorem endMarker_pre_inj (a b r : List Char) (ha : ' ' ∉ a) (hb : ' ' ∉ b)
    (h : endMarker a <+: endMarker b ++ r) : a = b := by
  refine space_free_pre_inj a b "-->".data "-->".data r ha hb ?_
  simp only [endMarker, List.append_assoc] at h
  have h3 := (append_pre_cancel endPre _ _).mp h
  simpa [arrowSuf_cons, List.append_assoc] using h3

theorem not_beginMarker_pre_endMarker (a b r : List Char) :
    ¬ beginMarker a <+: endMarker b ++ r := by
  intro h
  rw [beginMarker_cons6, endMarker_cons6, List.cons_append, List.cons_append,
    List.cons_append, List.cons_append, List.cons_append, List.cons_append] at h
  simp [List.cons_prefix_cons] at h

theorem not_endMarker_pre_beginMarker (a b r : List Char) :
    ¬ endMarker a <+: beginMarker b ++ r := by
  intro h
  rw [beginMarker_cons6, endMarker_cons6, List.cons_append, List.cons_append,
    List.cons_append, List.cons_append, List.cons_append, List.cons_append] at h
  simp [List.cons_prefix_cons] at h

theorem not_beginPre_pre_endMarker (b r : List Char) :
    ¬ beginPre <+: endMarker b ++ r := by
  intro h
  rw [endMarker_cons6, List.cons_append, List.cons_append, List.cons_append,
    List.cons_append, List.cons_append, List.cons_append,
    show beginPre = '<' :: '!' :: '-' :: '-' :: ' ' :: 'B' ::
      "EGIN: auto:".data from rfl] at h
  simp [List.cons_prefix_cons] at h

/-! ## Canonical-document facts -/

theorem render_nil : render [] = [] := rfl

theorem render_cons (s : Seg) (segs : List Seg) :
    render (s :: segs) = renderSeg s ++ render segs := by
  simp [render]

theorem beginPre_len : beginPre.length = 17 := rfl

theorem arrowSuf_len : arrowSuf.length = 4 := rfl

theorem beginMarker_len (id : List Char) :
    (beginMarker id).length = 17 + id.length + 4 := by
  simp [beginMarker, beginPre_len, arrowSuf_len]; omega

theorem endMarker_len (id : List Char) :
    (endMarker id).length = 15 + id.length + 4 := by
  simp [endMarker, arrowSuf_len, show endPre.length = 15 from rfl]; omega

theorem renderSeg_blk_len (id c : List Char) :
    (renderSeg (.blk id c)).length =
      (beginMarker id).length + (c.length + 2) + (endMarker id).length := by
  simp [renderSeg, newSectionText]; omega

theorem saneId_parts (id : List Char) (h : saneIdB id = true) :
    id ≠ [] ∧ '<' ∉ id ∧ ' ' ∉ id ∧ '\n' ∉ id := by
  simp only [saneIdB, Bool.and_eq_true, List.all_eq_true, Bool.not_eq_true'] at h
  obtain ⟨hne, hall⟩ := h
  refine ⟨?_, ?_, ?_, ?_⟩
  · intro he; rw [he] at hne; simp at hne
  · intro hm; have := hall _ hm; simp at this
  · intro hm; have := hall _ hm; simp at this
  · intro hm; have := hall _ hm; simp at this

theorem pureTxt_not_mem (s : List Char) (h : pureTxtB s = true) : '<' ∉ s := by
  simp only [pureTxtB, List.all_eq_true] at h
  intro hm
  simpa using h '<' hm

theorem canonicalB_cons_head {s : Seg} {segs : List Seg}
    (h : canonicalB (s :: segs) = true) : Seg.okB s = true := by
  simp only [canonicalB, List.all_cons, Bool.and_eq_true] at h
  exact h.1

theorem canonicalB_cons_tail {s : Seg} {segs : List Seg}
    (h : canonicalB (s :: segs) = true) : canonicalB segs = true := by
  simp only [canonicalB, List.all_cons, Bool.and_eq_true] at h
  exact h.2

theorem blk_decomp (id c t : List Char) :
    renderSeg (.blk id c) ++ t =
      beginMarker id ++ (('\n' :: c ++ ['\n']) ++ (endMarker id ++ t)) := by
  simp [renderSeg, newSectionText, List.append_assoc]

theorem mid_pure (c : List Char) (hc : '<' ∉ c) : '<' ∉ ('\n' :: c ++ ['\n']) := by
  intro h
  rcases List.mem_cons.1 h with h | h
  · exact absurd h (by decide)
  · rcases List.mem_append.1 h with h | h
    · exact hc h
    · exact absurd (List.mem_singleton.1 h) (by decide)

theorem reSubN_succ_eq (S E R text : List Char) (i j fuel : Nat)
    (h1 : firstOccIdx S text = some i)
    (h2 : firstOccIdx E (text.drop (i + S.length)) = some j) :
    reSubN S E R (fuel + 1) text =
      text.take i ++ R ++ reSubN S E R fuel (text.drop (i + S.length + j + E.length)) := by
  rw [reSubN, h1]
  simp only [h2]

theorem reSubN_step (S E R m t : List Char)
    (hm : firstOccIdx E (m ++ (E ++ t)) = some m.length) (fuel : Nat) :
    reSubN S E R (fuel + 1) (S ++ (m ++ (E ++ t))) = R ++ reSubN S E R fuel t := by
  have h1 : firstOccIdx S (S ++ (m ++ (E ++ t))) = some 0 :=
    firstOccIdx_of_pre _ _ (List.prefix_append _ _)
  have hd1 : (S ++ (m ++ (E ++ t))).drop (0 + S.length) = m ++ (E ++ t) := by
    rw [Nat.zero_add, List.drop_left]
  have hd2 : (S ++ (m ++ (E ++ t))).drop (0 + S.length + m.length + E.length) = t := by
    rw [show 0 + S.length + m.length + E.length =
        S.length + (m.length + (E.length + 0)) by omega,
      List.drop_append, List.drop_append, List.drop_append, List.drop]
  rw [reSubN_succ_eq S E R _ 0 m.length fuel h1 (by rw [hd1, hm]), hd2,
    List.take_zero, List.nil_append]

theorem reSubN_blk_self (a c' c : List Char) (hcp : '<' ∉ c) (t : List Char)
    (fuel : Nat) :
    reSubN (beginMarker a) (endMarker a) (newSectionText a c') (fuel + 1)
        (renderSeg (.blk a c) ++ t) =
      newSectionText a c' ++
        reSubN (beginMarker a) (endMarker a) (newSectionText a c') fuel t := by
  rw [blk_decomp]
  refine reSubN_step _ _ _ _ _ ?_ fuel
  rw [firstOccIdx_append_pure _ _ _ _ (endMarker_cons a) (mid_pure c hcp),
    firstOccIdx_of_pre _ _ (List.prefix_append _ _)]
  simp

theorem reSubN_bblk_skip (a b : List Char) (hab : b ≠ a) (hsa : ' ' ∉ a)
    (hsb : ' ' ∉ b) (hlb : '<' ∉ b) (c : List Char) (hcp : '<' ∉ c)
    (E R : List Char) (fuel : Nat) (t : List Char) :
    reSubN (beginMarker a) E R fuel (renderSeg (.blk b c) ++ t) =
      renderSeg (.blk b c) ++ reSubN (beginMarker a) E R fuel t := by
  have hnp : ¬ beginMarker a <+: (renderSeg (.blk b c) ++ t) := by
    intro h
    rw [show renderSeg (.blk b c) ++ t =
      beginMarker b ++ (('\n' :: c ++ '\n' :: endMarker b) ++ t) by
        simp [renderSeg, newSectionText, List.append_assoc]] at h
    exact hab (beginMarker_pre_inj a b _ hsa hsb (by simpa using h)).symm
  have hnp2 : ¬ beginMarker a <+: (endMarker b ++ t) :=
    not_beginMarker_pre_endMarker a b t
  have hd1 : renderSeg (.blk b c) ++ t =
      '<' :: (("!-- BEGIN: auto:".data ++ b ++ arrowSuf ++ ('\n' :: c ++ ['\n'])) ++
        (endMarker b ++ t)) := by
    simp [renderSeg, newSectionText, beginMarker_cons, List.append_assoc]
  have hpure1 : '<' ∉ ("!-- BEGIN: auto:".data ++ b ++ arrowSuf ++ ('\n' :: c ++ ['\n'])) := by
    intro h
    rcases List.mem_append.1 h with h | h
    · rcases List.mem_append.1 h with h | h
      · rcases List.mem_append.1 h with h | h
        · revert h; decide
        · exact hlb h
      · revert h; decide
    · exact mid_pure c hcp h
  have hd2 : endMarker b ++ t =
      '<' :: (("!-- END: auto:".data ++ b ++ arrowSuf) ++ t) := by
    rw [endMarker_cons b]; simp [List.append_assoc]
  have hpure2 : '<' ∉ ("!-- END: auto:".data ++ b ++ arrowSuf) := by
    intro h
    rcases List.mem_append.1 h with h | h
    · rcases List.mem_append.1 h with h | h
      · revert h; decide
      · exact hlb h
    · revert h; decide
  rw [hd1, reSubN_cons_not_pre _ _ _ _ _ (by rw [← hd1]; exact hnp) fuel,
    reSubN_append_pure _ _ _ _ (beginMarker_cons a) _ hpure1 fuel,
    hd2, reSubN_cons_not_pre _ _ _ _ _ (by rw [← hd2]; exact hnp2) fuel,
    reSubN_append_pure _ _ _ _ (beginMarker_cons a) _ hpure2 fuel]
  simp [renderSeg, newSectionText, beginMarker_cons, endMarker_cons,
    List.append_assoc]

theorem okB_blk_parts {b c0 : List Char} (h : Seg.okB (.blk b c0) = true) :
    saneIdB b = true ∧ pureTxtB c0 = true := by
  simpa [Seg.okB, Bool.and_eq_true] using h

theorem renderSeg_blk_pos (id c : List Char) :
    1 ≤ (renderSeg (.blk id c)).length := by
  rw [renderSeg_blk_len, beginMarker_len]
  omega

theorem reSubN_render (a c' : List Char) (ha : saneIdB a = true) :
    ∀ (segs : List Seg) (fuel : Nat), canonicalB segs = true →
      (render segs).length ≤ fuel →
      reSubN (beginMarker a) (endMarker a) (newSectionText a c') fuel
          (render segs) =
        render (segs.map (updSeg a c')) := by
  intro segs
  induction segs with
  | nil =>
    intro fuel _ _
    simp [render_nil, reSubN_nil _ _ _ (beginMarker_ne_nil a) fuel, render]
  | cons s rest ih =>
    intro fuel hc hlen
    have hcs := canonicalB_cons_head hc
    have hct := canonicalB_cons_tail hc
    rw [render_cons] at hlen
    rw [render_cons]
    cases s with
    | txt s0 =>
      have hp : '<' ∉ s0 := pureTxt_not_mem s0 hcs
      simp only [renderSeg] at hlen ⊢
      rw [reSubN_append_pure _ _ _ _ (beginMarker_cons a) _ hp fuel,
        ih fuel hct (by simp [List.length_append] at hlen; omega)]
      simp [render_cons, updSeg, renderSeg]
    | blk b c0 =>
      obtain ⟨hbs, hbc⟩ := okB_blk_parts hcs
      obtain ⟨hbne, hblt, hbsp, hbnl⟩ := saneId_parts b hbs
      obtain ⟨ane, alt, asp, anl⟩ := saneId_parts a ha
      by_cases hb : b = a
      · subst hb
        have h1 : 1 ≤ fuel := by
          have := renderSeg_blk_pos b c0
          have := List.length_append (renderSeg (.blk b c0)) (render rest)
          omega
        obtain ⟨f, rfl⟩ : ∃ f, fuel = f + 1 := ⟨fuel - 1, by omega⟩
        rw [reSubN_blk_self b c' c0 (pureTxt_not_mem c0 hbc) (render rest) f,
          ih f hct (by have := renderSeg_blk_pos b c0
                       simp [List.length_append] at hlen; omega)]
        simp [render_cons, updSeg, renderSeg]
      · rw [reSubN_bblk_skip a b hb asp hbsp hblt c0 (pureTxt_not_mem c0 hbc)
            _ _ fuel (render rest),
          ih fuel hct (by have := renderSeg_blk_pos b c0
                          simp [List.length_append] at hlen; omega)]
        simp [render_cons, updSeg, hb]

theorem firstOccIdx_bblk (a b : List Char) (hab : b ≠ a) (hsa : ' ' ∉ a)
    (hsb : ' ' ∉ b) (hlb : '<' ∉ b) (c : List Char) (hcp : '<' ∉ c)
    (t : List Char) :
    firstOccIdx (beginMarker a) (renderSeg (.blk b c) ++ t) =
      (firstOccIdx (beginMarker a) t).map (· + (renderSeg (.blk b c)).length) := by
  have hnp : ¬ beginMarker a <+: (renderSeg (.blk b c) ++ t) := by
    intro h
    rw [show renderSeg (.blk b c) ++ t =
      beginMarker b ++ (('\n' :: c ++ '\n' :: endMarker b) ++ t) by
        simp [renderSeg, newSectionText, List.append_assoc]] at h
    exact hab (beginMarker_pre_inj a b _ hsa hsb (by simpa using h)).symm
  have hnp2 : ¬ beginMarker a <+: (endMarker b ++ t) :=
    not_beginMarker_pre_endMarker a b t
  have hd1 : renderSeg (.blk b c) ++ t =
      '<' :: (("!-- BEGIN: auto:".data ++ b ++ arrowSuf ++ ('\n' :: c ++ ['\n'])) ++
        (endMarker b ++ t)) := by
    simp [renderSeg, newSectionText, beginMarker_cons, List.append_assoc]
  have hpure1 : '<' ∉ ("!-- BEGIN: auto:".data ++ b ++ arrowSuf ++ ('\n' :: c ++ ['\n'])) := by
    intro h
    rcases List.mem_append.1 h with h | h
    · rcases List.mem_append.1 h with h | h
      · rcases List.mem_append.1 h with h | h
        · revert h; decide
        · exact hlb h
      · revert h; decide
    · exact mid_pure c hcp h
  have hd2 : endMarker b ++ t =
      '<' :: (("!-- END: auto:".data ++ b ++ arrowSuf) ++ t) := by
    rw [endMarker_cons b]; simp [List.append_assoc]
  have hpure2 : '<' ∉ ("!-- END: auto:".data ++ b ++ arrowSuf) := by
    intro h
    rcases List.mem_append.1 h with h | h
    · rcases List.mem_append.1 h with h | h
      · revert h; decide
      · exact hlb h
    · revert h; decide
  rw [hd1, firstOccIdx_cons_not_pre _ _ _ (by rw [← hd1]; exact hnp),
    firstOccIdx_append_pure _ _ _ _ (beginMarker_cons a) hpure1,
    hd2, firstOccIdx_cons_not_pre _ _ _ (by rw [← hd2]; exact hnp2),
    firstOccIdx_append_pure _ _ _ _ (beginMarker_cons a) hpure2]
  cases firstOccIdx (beginMarker a) t with
  | none => simp
  | some i =>
    simp only [Option.map_some']
    congr 1
    simp [renderSeg, newSectionText, List.length_append, beginMarker_len,
      endMarker_len, arrowSuf_len,
      show ("!-- BEGIN: auto:".data).length = 16 from rfl,
      show ("!-- END: auto:".data).length = 14 from rfl]
    omega

theorem hasPat_append_pure (a : List Char) (s t : List Char) (hs : '<' ∉ s) :
    hasPatMatch (beginMarker a) (endMarker a) (s ++ t) =
      hasPatMatch (beginMarker a) (endMarker a) t := by
  unfold hasPatMatch
  rw [firstOccIdx_append_pure _ _ _ _ (beginMarker_cons a) hs]
  cases h : firstOccIdx (beginMarker a) t with
  | none => simp
  | some i =>
    simp only [Option.map_some']
    have hdd : (s ++ t).drop (i + s.length + (beginMarker a).length) =
        t.drop (i + (beginMarker a).length) := by
      rw [show i + s.length + (beginMarker a).length =
        s.length + (i + (beginMarker a).length) by omega, List.drop_append]
    rw [hdd]

theorem hasPat_bblk_skip (a b : List Char) (hab : b ≠ a) (hsa : ' ' ∉ a)
    (hsb : ' ' ∉ b) (hlb : '<' ∉ b) (c : List Char) (hcp : '<' ∉ c)
    (t : List Char) :
    hasPatMatch (beginMarker a) (endMarker a) (renderSeg (.blk b c) ++ t) =
      hasPatMatch (beginMarker a) (endMarker a) t := by
  unfold hasPatMatch
  rw [firstOccIdx_bblk a b hab hsa hsb hlb c hcp t]
  cases h : firstOccIdx (beginMarker a) t with
  | none => simp
  | some i =>
    simp only [Option.map_some']
    have hdd : (renderSeg (.blk b c) ++ t).drop
        (i + (renderSeg (.blk b c)).length + (beginMarker a).length) =
        t.drop (i + (beginMarker a).length) := by
      rw [show i + (renderSeg (.blk b c)).length + (beginMarker a).length =
        (renderSeg (.blk b c)).length + (i + (beginMarker a).length) by omega,
        List.drop_append]
    rw [hdd]

theorem hasPat_blk_self (a c : List Char) (hcp : '<' ∉ c) (t : List Char) :
    hasPatMatch (beginMarker a) (endMarker a) (renderSeg (.blk a c) ++ t) = true := by
  have h2 : firstOccIdx (endMarker a)
      (('\n' :: c ++ ['\n']) ++ (endMarker a ++ t)) ≠ none := by
    rw [firstOccIdx_append_pure _ _ _ _ (endMarker_cons a) (mid_pure c hcp),
      firstOccIdx_of_pre _ _ (List.prefix_append _ _)]
    simp
  unfold hasPatMatch
  rw [blk_decomp, firstOccIdx_of_pre _ _ (List.prefix_append _ _)]
  simp only [Nat.zero_add, List.drop_left]
  obtain ⟨j, hj⟩ := Option.ne_none_iff_exists'.1 h2
  rw [hj]
  rfl

theorem hasPat_render (a : List Char) (ha : saneIdB a = true) :
    ∀ segs : List Seg, canonicalB segs = true →
      hasPatMatch (beginMarker a) (endMarker a) (render segs) =
        containsBlk a segs := by
  intro segs
  induction segs with
  | nil =>
    intro _
    simp [render_nil, hasPatMatch, firstOccIdx_nil _ (beginMarker_ne_nil a),
      containsBlk]
  | cons s rest ih =>
    intro hc
    have hcs := canonicalB_cons_head hc
    have hct := canonicalB_cons_tail hc
    rw [render_cons]
    obtain ⟨ane, alt, asp, anl⟩ := saneId_parts a ha
    cases s with
    | txt s0 =>
      simp only [renderSeg]
      rw [hasPat_append_pure a s0 _ (pureTxt_not_mem s0 hcs), ih hct]
      simp [containsBlk]
    | blk b c0 =>
      obtain ⟨hbs, hbc⟩ := okB_blk_parts hcs
      obtain ⟨hbne, hblt, hbsp, hbnl⟩ := saneId_parts b hbs
      by_cases hb : b = a
      · subst hb
        rw [hasPat_blk_self b c0 (pureTxt_not_mem c0 hbc)]
        simp [containsBlk]
      · rw [hasPat_bblk_skip a b hb asp hbsp hblt c0 (pureTxt_not_mem c0 hbc),
          ih hct]
        simp [containsBlk, hb]

theorem render_append (xs ys : List Seg) :
    render (xs ++ ys) = render xs ++ render ys := by
  simp [render]

theorem canonicalB_append (xs ys : List Seg) :
    canonicalB (xs ++ ys) = (canonicalB xs && canonicalB ys) := by
  simp [canonicalB, List.all_append]

theorem containsBlk_append (a : List Char) (xs ys : List Seg) :
    containsBlk a (xs ++ ys) = (containsBlk a xs || containsBlk a ys) := by
  simp [containsBlk, List.any_append]

theorem pyWriteSection_render (segs : List Seg) (stem a c : List Char)
    (ha : saneIdB a = true) (hcan : canonicalB segs = true) :
    pyWriteSection (some (render segs)) stem a c =
      if containsBlk a segs then render (segs.map (updSeg a c))
      else render segs ++ "\n\n".data ++ newSectionText a c ++ "\n\n---".data := by
  unfold pyWriteSection
  simp only []
  rw [hasPat_render a ha segs hcan]
  by_cases h : containsBlk a segs = true
  · simp only [h, if_true]
    exact reSubN_render a c ha segs (render segs).length hcan (le_refl _)
  · simp only [Bool.not_eq_true] at h
    simp [h]

theorem updSeg_okB (a c : List Char) (ha : saneIdB a = true)
    (hc : pureTxtB c = true) (s : Seg) (hs : Seg.okB s = true) :
    Seg.okB (updSeg a c s) = true := by
  cases s with
  | txt s0 => exact hs
  | blk b c0 =>
    by_cases hb : b = a <;> simp [updSeg, hb, Seg.okB, ha, hc, hs]
    · exact okB_blk_parts hs

theorem canonicalB_map_upd (a c : List Char) (ha : saneIdB a = true)
    (hc : pureTxtB c = true) (segs : List Seg) (hcan : canonicalB segs = true) :
    canonicalB (segs.map (updSeg a c)) = true := by
  induction segs with
  | nil => rfl
  | cons s rest ih =>
    have h1 := canonicalB_cons_head hcan
    have h2 := canonicalB_cons_tail hcan
    simp only [List.map_cons, canonicalB, List.all_cons, Bool.and_eq_true]
    exact ⟨updSeg_okB a c ha hc s h1, by simpa [canonicalB] using ih h2⟩

theorem containsBlk_map_upd (a c : List Char) (segs : List Seg) :
    containsBlk a (segs.map (updSeg a c)) = containsBlk a segs := by
  induction segs with
  | nil => rfl
  | cons s rest ih =>
    cases s with
    | txt s0 => simpa [containsBlk, updSeg] using ih
    | blk b c0 =>
      by_cases hb : b = a <;>
        simp [containsBlk, updSeg, hb, ih] <;> simp [containsBlk] at ih <;>
        exact ih

theorem updSeg_idem (a c : List Char) (s : Seg) :
    updSeg a c (updSeg a c s) = updSeg a c s := by
  cases s with
  | txt s0 => rfl
  | blk b c0 => by_cases hb : b = a <;> simp [updSeg, hb]

theorem map_upd_idem (a c : List Char) (segs : List Seg) :
    (segs.map (updSeg a c)).map (updSeg a c) = segs.map (updSeg a c) := by
  rw [List.map_map]
  exact List.map_congr_left fun s _ => updSeg_idem a c s

theorem map_upd_of_not_contains (a c : List Char) (segs : List Seg)
    (h : containsBlk a segs = false) : segs.map (updSeg a c) = segs := by
  induction segs with
  | nil => rfl
  | cons s rest ih =>
    simp only [containsBlk, List.any_cons, Bool.or_eq_false_iff] at h
    rw [List.map_cons, ih (by simpa [containsBlk] using h.2)]
    cases s with
    | txt s0 => rfl
    | blk b c0 =>
      have hb : b ≠ a := by
        intro hb
        simp [hb] at h
      simp [updSeg, hb]

theorem pureTxtB_append (x y : List Char) :
    pureTxtB (x ++ y) = (pureTxtB x && pureTxtB y) := by
  simp [pureTxtB, List.all_append]

theorem writeSection_canonical (existing : Option (List Char))
    (stem a c : List Char) (ha : saneIdB a = true) (hc : pureTxtB c = true)
    (hdoc : (existing = none ∧ pureTxtB stem = true) ∨
      ∃ segs, canonicalB segs = true ∧ existing = some (render segs)) :
    ∃ segs', canonicalB segs' = true ∧ containsBlk a segs' = true ∧
      pyWriteSection existing stem a c = render segs' ∧
      segs'.map (updSeg a c) = segs' := by
  rcases hdoc with ⟨hnone, hstem⟩ | ⟨segs, hcan, hsome⟩
  · subst hnone
    have hdh : pureTxtB (defaultHeader stem) = true := by
      simp only [defaultHeader, pureTxtB_append, Bool.and_eq_true]
      exact ⟨⟨by decide, hstem⟩, by decide⟩
    have hrw : defaultHeader stem = render [Seg.txt (defaultHeader stem)] := by
      simp [render, renderSeg]
    have hmatch : hasPatMatch (beginMarker a) (endMarker a) (defaultHeader stem)
        = false := by
      rw [hrw, hasPat_render a ha _ (by simpa [canonicalB, Seg.okB] using hdh)]
      simp [containsBlk]
    refine ⟨[.txt (defaultHeader stem), .txt "\n\n".data, .blk a c,
      .txt "\n\n---".data], ?_, ?_, ?_, ?_⟩
    · simp [canonicalB, Seg.okB, hdh, ha, hc,
        show pureTxtB "\n\n".data = true from by decide,
        show pureTxtB "\n\n---".data = true from by decide]
    · simp [containsBlk]
    · unfold pyWriteSection
      simp only [hmatch, Bool.false_eq_true, if_false]
      simp [render, renderSeg, List.append_assoc]
    · simp [updSeg]
  · subst hsome
    rw [pyWriteSection_render segs stem a c ha hcan]
    by_cases h : containsBlk a segs = true
    · refine ⟨segs.map (updSeg a c), canonicalB_map_upd a c ha hc segs hcan,
        ?_, by simp [h], map_upd_idem a c segs⟩
      rw [containsBlk_map_upd]
      exact h
    · simp only [Bool.not_eq_true] at h
      refine ⟨segs ++ [.txt "\n\n".data, .blk a c, .txt "\n\n---".data],
        ?_, ?_, ?_, ?_⟩
      · rw [canonicalB_append, hcan]
        simp [canonicalB, Seg.okB, ha, hc,
          show pureTxtB "\n\n".data = true from by decide,
          show pureTxtB "\n\n---".data = true from by decide]
      · rw [containsBlk_append]
        simp [containsBlk]
      · rw [render_append]
        simp [h, render, renderSeg, List.append_assoc]
      · rw [List.map_append, map_upd_of_not_contains a c segs h]
        simp [updSeg]

/-- C2 (amended): for a well-behaved symbol id (nonempty dotted path without
`<`, space or newline), marker-free content, and a document that either does
not exist (with a marker-free stem) or is writer-shaped (marker-free text
runs interleaved with well-formed blocks), calling
`MarkdownWriter.write_section` twice with the identical `(symbol_id, content)`
pair yields a file byte-identical to the state after the first call.  The
original unconditional claim is false: see the counterexample where the
content itself contains the END marker. -/
theorem c2_write_section_idempotent (existing : Option (List Char))
    (stem a c : List Char) (ha : saneIdB a = true) (hc : pureTxtB c = true)
    (hdoc : (existing = none ∧ pureTxtB stem = true) ∨
      ∃ segs, canonicalB segs = true ∧ existing = some (render segs)) :
    pyWriteSection (some (pyWriteSection existing stem a c)) stem a c =
      pyWriteSection existing stem a c := by
  obtain ⟨segs', hcan', hcon', hout, hfix⟩ :=
    writeSection_canonical existing stem a c ha hc hdoc
  rw [hout, pyWriteSection_render segs' stem a c ha hcan']
  simp [hcon', hfix]

/-- C2 counterexample: writing symbol id `a` with a content that contains the
symbol's own END marker into a fresh document, then writing the identical
`(symbol_id, content)` pair again, changes the file: the second call's lazy
match stops at the END marker embedded in the content, so the substitution
duplicates the trailing part of the block. -/
theorem c2_write_section_idempotent_cex :
    pyWriteSection
        (some (pyWriteSection none "d".data "a".data (endMarker "a".data)))
        "d".data "a".data (endMarker "a".data) ≠
      pyWriteSection none "d".data "a".data (endMarker "a".data) := by
  decide

/-- C2 witness: the amended idempotence applied to a concrete fresh document
write with a dotted-path id and plain-text content. -/
theorem c2_write_section_idempotent_witness :
    saneIdB "calculator.core.add".data = true ∧
    pureTxtB "Adds two numbers.".data = true ∧
    pyWriteSection
        (some (pyWriteSection none "core".data "calculator.core.add".data
          "Adds two numbers.".data))
        "core".data "calculator.core.add".data "Adds two numbers.".data =
      pyWriteSection none "core".data "calculator.core.add".data
        "Adds two numbers.".data :=
  ⟨by decide, by decide,
    c2_write_section_idempotent none "core".data "calculator.core.add".data
      "Adds two numbers.".data (by decide) (by decide)
      (Or.inl ⟨rfl, by decide⟩)⟩

/-! ## findBlocks (finditer) infrastructure -/

theorem findBlocksN_nilText (fuel : Nat) : findBlocksN fuel [] = [] := by
  cases fuel with
  | zero => rfl
  | succ f =>
    rw [findBlocksN]
    have h : blockMatchLen [] = none := by decide
    rw [h]

theorem blockMatchLen_pos (text : List Char) (u : List Char) (len : Nat)
    (h : blockMatchLen text = some (u, len)) : 1 ≤ len := by
  unfold blockMatchLen at h
  split at h
  · simp only at h
    split at h
    · exact absurd h (by simp)
    · split at h
      · split at h
        · rw [Option.some_inj] at h
          have := congrArg Prod.snd h
          simp at this
          omega
        · exact absurd h (by simp)
      · exact absurd h (by simp)
  · exact absurd h (by simp)

theorem findBlocksN_irrel (f : Nat) : ∀ (text : List Char) (g : Nat),
    text.length ≤ f → text.length ≤ g → findBlocksN f text = findBlocksN g text := by
  induction f with
  | zero =>
    intro text g hf _
    have : text = [] := List.length_eq_zero.1 (Nat.le_zero.1 hf)
    subst this
    rw [findBlocksN_nilText, findBlocksN_nilText]
  | succ f ih =>
    intro text g hf hg
    cases text with
    | nil => rw [findBlocksN_nilText, findBlocksN_nilText]
    | cons c t =>
      cases g with
      | zero => simp at hg
      | succ g' =>
        rw [findBlocksN, findBlocksN]
        cases hm : blockMatchLen (c :: t) with
        | some ul =>
          obtain ⟨u, len⟩ := ul
          have hl : 1 ≤ len := blockMatchLen_pos _ _ _ hm
          simp only
          rw [ih ((c :: t).drop len) g'
            (by simp [List.length_drop]; simp [List.length_cons] at hf; omega)
            (by simp [List.length_drop]; simp [List.length_cons] at hg; omega)]
        | none =>
          simp only
          rw [ih t g' (by simp [List.length_cons] at hf; omega)
            (by simp [List.length_cons] at hg; omega)]

theorem findBlocksN_ge (text : List Char) (f : Nat) (hf : text.length ≤ f) :
    findBlocksN f text = findBlocks text :=
  findBlocksN_irrel f text text.length hf (le_refl _)

theorem findBlocks_cons_none (c : Char) (t : List Char)
    (h : blockMatchLen (c :: t) = none) : findBlocks (c :: t) = findBlocks t := by
  rw [findBlocks, List.length_cons, findBlocksN, h]
  rfl

theorem blockMatchLen_cons_not_lt (c : Char) (t : List Char) (hc : c ≠ '<') :
    blockMatchLen (c :: t) = none := by
  unfold blockMatchLen
  rw [if_neg]
  intro h
  exact @not_pre_cons_of_head_ne '<' c ("!-- BEGIN: auto:".data) t hc h

theorem findBlocks_pure_append (s t : List Char) (hs : '<' ∉ s) :
    findBlocks (s ++ t) = findBlocks t := by
  induction s with
  | nil => rfl
  | cons c s' ih =>
    have hc : c ≠ '<' := fun h => hs (h ▸ List.mem_cons_self c s')
    have hs' : '<' ∉ s' := fun h => hs (List.mem_cons_of_mem c h)
    rw [List.cons_append,
      findBlocks_cons_none c _ (blockMatchLen_cons_not_lt c _ hc), ih hs']

theorem blockMatchLen_blk (b c : List Char) (hbne : b ≠ []) (hbsp : ' ' ∉ b)
    (hcp : '<' ∉ c) (t : List Char) :
    blockMatchLen (renderSeg (.blk b c) ++ t) =
      some (b, (renderSeg (.blk b c)).length) := by
  have hform : renderSeg (.blk b c) ++ t =
      beginPre ++ (b ++ (arrowSuf ++ ('\n' :: (c ++ '\n' :: (endMarker b ++ t))))) := by
    simp [renderSeg, newSectionText, beginMarker, List.append_assoc]
  have htw : (b ++ (arrowSuf ++ ('\n' :: (c ++ '\n' :: (endMarker b ++ t))))).takeWhile
      (· ≠ ' ') = b := by
    have hb' : ∀ x ∈ b, (fun x => decide (x ≠ ' ')) x = true := by
      intro x hx
      simp only [decide_eq_true_eq]
      intro he
      exact hbsp (he ▸ hx)
    rw [List.takeWhile_append_of_pos hb', arrowSuf_cons, List.cons_append]
    simp
  have hdrop4 : (b ++ (arrowSuf ++ ('\n' :: (c ++ '\n' :: (endMarker b ++ t))))).drop
      (b.length + 4) = '\n' :: (c ++ '\n' :: (endMarker b ++ t)) := by
    rw [List.drop_append, show (4:Nat) = arrowSuf.length from rfl, List.drop_left]
  have hocc : firstOccIdx (endMarker b) ('\n' :: (c ++ '\n' :: (endMarker b ++ t))) =
      some (c.length + 2) := by
    rw [show '\n' :: (c ++ '\n' :: (endMarker b ++ t)) =
      ('\n' :: c ++ ['\n']) ++ (endMarker b ++ t) by simp,
      firstOccIdx_append_pure _ _ _ _ (endMarker_cons b) (mid_pure c hcp),
      firstOccIdx_of_pre _ _ (List.prefix_append _ _)]
    simp
  unfold blockMatchLen
  rw [hform, if_pos (by exact List.prefix_append _ _)]
  simp only [show (17:Nat) = beginPre.length from rfl, List.drop_left, htw,
    if_neg hbne, hdrop4, hocc]
  rw [if_pos (by exact List.prefix_append _ _)]
  simp only [Option.some_inj, Prod.mk.injEq, true_and]
  rw [renderSeg_blk_len, beginMarker_len]
  simp only [beginPre_len]

theorem findBlocksN_succ (fuel : Nat) (text : List Char) :
    findBlocksN (fuel + 1) text =
      match blockMatchLen text with
      | some (u, len) => (u, text.take len) :: findBlocksN fuel (text.drop len)
      | none =>
        match text with
        | [] => []
        | _ :: t => findBlocksN fuel t := rfl

theorem findBlocks_render (segs : List Seg) (hcan : canonicalB segs = true) :
    findBlocks (render segs) = blockAssocR segs := by
  induction segs with
  | nil => simp [render_nil, findBlocks, findBlocksN_nilText, blockAssocR]
  | cons s rest ih =>
    have hcs := canonicalB_cons_head hcan
    have hct := canonicalB_cons_tail hcan
    rw [render_cons]
    cases s with
    | txt s0 =>
      simp only [renderSeg]
      rw [findBlocks_pure_append s0 _ (pureTxt_not_mem s0 hcs), ih hct]
      simp [blockAssocR]
    | blk b c0 =>
      obtain ⟨hbs, hbc⟩ := okB_blk_parts hcs
      obtain ⟨hbne, hblt, hbsp, hbnl⟩ := saneId_parts b hbs
      have hm := blockMatchLen_blk b c0 hbne hbsp (pureTxt_not_mem c0 hbc)
        (render rest)
      have hpos := renderSeg_blk_pos b c0
      obtain ⟨n, hn⟩ : ∃ n, (renderSeg (.blk b c0) ++ render rest).length = n + 1 :=
        ⟨(renderSeg (.blk b c0) ++ render rest).length - 1, by
          simp [List.length_append]; omega⟩
      have hge : (render rest).length ≤ n := by
        simp [List.length_append] at hn
        omega
      rw [findBlocks, hn, findBlocksN_succ]
      simp only [hm]
      rw [List.take_left, List.drop_left, findBlocksN_ge (render rest) n hge,
        ih hct]
      simp [blockAssocR]

/-! ## Header detection (re.search for the first generic BEGIN marker) -/

theorem genericBeginAt_nil : genericBeginAt [] = false := by decide

theorem genericBeginAt_not_lt (c : Char) (t : List Char) (hc : c ≠ '<') :
    genericBeginAt (c :: t) = false := by
  have hnp : ¬ beginPre <+: (c :: t) := by
    rw [show beginPre = '<' :: "!-- BEGIN: auto:".data from rfl]
    exact not_pre_cons_of_head_ne hc
  unfold genericBeginAt
  rw [decide_eq_false hnp]
  rfl

theorem genericBeginAt_blk (b c : List Char) (hbnl : '\n' ∉ b) (t : List Char) :
    genericBeginAt (renderSeg (.blk b c) ++ t) = true := by
  have hform : renderSeg (.blk b c) ++ t =
      beginPre ++ (b ++ (arrowSuf ++ ('\n' :: (c ++ '\n' :: (endMarker b ++ t))))) := by
    simp [renderSeg, newSectionText, beginMarker, List.append_assoc]
  have hb' : ∀ x ∈ b, (fun x => decide (x ≠ '\n')) x = true := by
    intro x hx
    simp only [decide_eq_true_eq]
    intro he
    exact hbnl (he ▸ hx)
  unfold genericBeginAt
  rw [hform]
  rw [decide_eq_true (List.prefix_append _ _), Bool.true_and,
    show (17:Nat) = beginPre.length from rfl, List.drop_left,
    List.takeWhile_append_of_pos hb', arrowSuf_cons, List.cons_append]
  have htw : List.takeWhile (fun x => decide (x ≠ '\n'))
      (' ' :: ("-->".data ++ '\n' :: (c ++ '\n' :: (endMarker b ++ t)))) =
      ' ' :: "-->".data := by
    simp [List.takeWhile_cons]
  rw [htw]
  refine decide_eq_true ?_
  exact ⟨b, [], by simp [arrowSuf_cons]⟩

theorem genericBeginAt_endMarker (b t : List Char) :
    genericBeginAt (endMarker b ++ t) = false := by
  unfold genericBeginAt
  rw [decide_eq_false (not_beginPre_pre_endMarker b t)]
  rfl

theorem firstIdxP_none_of_pure (p : List Char → Bool)
    (hp : ∀ c u, c ≠ '<' → p (c :: u) = false) (hnil : p [] = false)
    (l : List Char) (hl : '<' ∉ l) : firstIdxP p l = none := by
  induction l with
  | nil => simp [firstIdxP, hnil]
  | cons c t ih =>
    have hc : c ≠ '<' := fun h => hl (h ▸ List.mem_cons_self c t)
    rw [firstIdxP_cons_false p c t (hp c t hc),
      ih (fun h => hl (List.mem_cons_of_mem c h))]
    rfl

theorem firstIdxP_head_true (p : List Char → Bool) (l : List Char)
    (hl : l ≠ []) (h : p l = true) : firstIdxP p l = some 0 := by
  cases l with
  | nil => exact absurd rfl hl
  | cons c t => simp [firstIdxP, h]

theorem render_pure (segs : List Seg) (hcan : canonicalB segs = true)
    (htxt : ∀ s ∈ segs, s.isTxt = true) : '<' ∉ render segs := by
  induction segs with
  | nil => simp [render_nil]
  | cons s rest ih =>
    rw [render_cons]
    intro hmem
    rcases List.mem_append.1 hmem with h | h
    · cases s with
      | txt s0 => exact pureTxt_not_mem s0 (canonicalB_cons_head hcan) h
      | blk b c0 =>
        have := htxt _ (List.mem_cons_self (Seg.blk b c0) rest)
        simp [Seg.isTxt] at this
    · exact ih (canonicalB_cons_tail hcan)
        (fun s hs => htxt s (List.mem_cons_of_mem _ hs)) h

theorem containsAnyBlk_cons_txt (s0 : List Char) (rest : List Seg) :
    containsAnyBlk (Seg.txt s0 :: rest) = containsAnyBlk rest := by
  simp [containsAnyBlk, Seg.isTxt]

theorem containsAnyBlk_cons_blk (b c : List Char) (rest : List Seg) :
    containsAnyBlk (Seg.blk b c :: rest) = true := by
  simp [containsAnyBlk, Seg.isTxt]

theorem takeWhile_isTxt_cons_txt (s0 : List Char) (rest : List Seg) :
    (Seg.txt s0 :: rest).takeWhile Seg.isTxt =
      Seg.txt s0 :: rest.takeWhile Seg.isTxt := by
  simp [List.takeWhile_cons, Seg.isTxt]

theorem takeWhile_isTxt_cons_blk (b c : List Char) (rest : List Seg) :
    (Seg.blk b c :: rest).takeWhile Seg.isTxt = [] := by
  simp [List.takeWhile_cons, Seg.isTxt]

theorem firstMarker_render (segs : List Seg) (hcan : canonicalB segs = true) :
    firstIdxP genericBeginAt (render segs) =
      if containsAnyBlk segs then
        some (render (segs.takeWhile Seg.isTxt)).length
      else none := by
  induction segs with
  | nil =>
    simp [render_nil, firstIdxP, genericBeginAt_nil, containsAnyBlk]
  | cons s rest ih =>
    have hcs := canonicalB_cons_head hcan
    have hct := canonicalB_cons_tail hcan
    cases s with
    | txt s0 =>
      rw [render_cons]
      simp only [renderSeg]
      rw [firstIdxP_append_pure genericBeginAt s0 _
        (fun c u hc => genericBeginAt_not_lt c u hc) (pureTxt_not_mem s0 hcs),
        ih hct, containsAnyBlk_cons_txt, takeWhile_isTxt_cons_txt]
      by_cases h : containsAnyBlk rest = true
      · simp only [h, if_true, Option.map_some', render_cons, renderSeg,
          List.length_append, Option.some_inj]
        omega
      · simp only [Bool.not_eq_true] at h
        simp [h]
    | blk b c0 =>
      obtain ⟨hbs, hbc⟩ := okB_blk_parts hcs
      obtain ⟨hbne, hblt, hbsp, hbnl⟩ := saneId_parts b hbs
      rw [render_cons, firstIdxP_head_true genericBeginAt _
        (by
          intro hh
          have h1 := congrArg List.length hh
          simp only [List.length_append, List.length_nil] at h1
          have h2 := renderSeg_blk_pos b c0
          omega)
        (genericBeginAt_blk b c0 hbnl (render rest)),
        containsAnyBlk_cons_blk, takeWhile_isTxt_cons_blk]
      simp [render_nil]

theorem pyReorder_render (segs : List Seg) (ordered : List (List Char))
    (hcan : canonicalB segs = true) :
    pyReorder (render segs) ordered =
      if containsAnyBlk segs then
        pyEnsureNl (List.intercalate "\n\n".data
          (pyStrip (render (segs.takeWhile Seg.isTxt)) ::
            ordered.filterMap (fun sid => pyDictGet (blockAssocR segs) sid)))
      else render segs := by
  unfold pyReorder
  rw [firstMarker_render segs hcan]
  by_cases h : containsAnyBlk segs = true
  · simp only [h, if_true]
    have htake : (render segs).take (render (segs.takeWhile Seg.isTxt)).length =
        render (segs.takeWhile Seg.isTxt) := by
      conv_lhs =>
        rw [show render segs = render (segs.takeWhile Seg.isTxt) ++
          render (segs.dropWhile Seg.isTxt) by
            rw [← render_append, List.takeWhile_append_dropWhile]]
      exact List.take_left _ _
    rw [htake, findBlocks_render segs hcan]
  · simp only [Bool.not_eq_true] at h
    simp [h]

/-! ## Python strip lemmas -/

theorem dropWhile_append_all (p : Char → Bool) (l₁ l₂ : List Char)
    (h : ∀ x ∈ l₁, p x = true) :
    List.dropWhile p (l₁ ++ l₂) = List.dropWhile p l₂ := by
  induction l₁ with
  | nil => rfl
  | cons c t ih =>
    rw [List.cons_append, List.dropWhile_cons_of_pos (h c (List.mem_cons_self c t)),
      ih (fun x hx => h x (List.mem_cons_of_mem c hx))]

theorem dropWhile_eq_cons_head_false (p : Char → Bool) (l : List Char)
    (c : Char) (t : List Char) (h : List.dropWhile p l = c :: t) : p c = false := by
  induction l with
  | nil => simp at h
  | cons a l' ih =>
    rw [List.dropWhile_cons] at h
    split at h
    · exact ih h
    · injection h with h1 _
      subst h1
      simp_all

theorem dropWhile_head_false_eq (p : Char → Bool) (c : Char) (t : List Char)
    (h : p c = false) : List.dropWhile p (c :: t) = c :: t := by
  rw [List.dropWhile_cons_of_neg (by simp [h])]

theorem pyStripEnd_append_ws (y ws : List Char)
    (hws : ∀ c ∈ ws, isPySpace c = true) : pyStripEnd (y ++ ws) = pyStripEnd y := by
  unfold pyStripEnd
  rw [List.reverse_append, dropWhile_append_all isPySpace ws.reverse y.reverse
    (fun x hx => hws x (List.mem_reverse.1 hx))]

theorem dropWhile_eq_nil_of_all (p : Char → Bool) (l : List Char)
    (h : ∀ x ∈ l, p x = true) : List.dropWhile p l = [] := by
  induction l with
  | nil => rfl
  | cons c t ih =>
    rw [List.dropWhile_cons_of_pos (h c (List.mem_cons_self c t))]
    exact ih fun x hx => h x (List.mem_cons_of_mem c hx)

theorem dropWhile_idem (p : Char → Bool) (l : List Char) :
    List.dropWhile p (List.dropWhile p l) = List.dropWhile p l := by
  cases h : List.dropWhile p l with
  | nil => rfl
  | cons c t =>
    exact dropWhile_head_false_eq p c t (dropWhile_eq_cons_head_false p l c t h)

theorem pyStripEnd_idem (y : List Char) :
    pyStripEnd (pyStripEnd y) = pyStripEnd y := by
  unfold pyStripEnd
  rw [List.reverse_reverse, dropWhile_idem]

theorem pyStripEnd_pre (y : List Char) : pyStripEnd y <+: y := by
  rw [← List.reverse_suffix]
  unfold pyStripEnd
  rw [List.reverse_reverse]
  exact List.dropWhile_suffix isPySpace

theorem pyStrip_append_ws (z ws : List Char)
    (hws : ∀ c ∈ ws, isPySpace c = true) : pyStrip (z ++ ws) = pyStrip z := by
  unfold pyStrip
  rw [List.dropWhile_append]
  cases h : List.dropWhile isPySpace z with
  | nil =>
    simp only [List.isEmpty_nil, if_true]
    rw [dropWhile_eq_nil_of_all isPySpace ws hws]
  | cons c t =>
    simp only [List.isEmpty_cons, if_false]
    exact pyStripEnd_append_ws (c :: t) ws hws

theorem pyStrip_idem (x : List Char) : pyStrip (pyStrip x) = pyStrip x := by
  unfold pyStrip
  have hD : List.dropWhile isPySpace (pyStripEnd (List.dropWhile isPySpace x)) =
      pyStripEnd (List.dropWhile isPySpace x) := by
    cases hh : pyStripEnd (List.dropWhile isPySpace x) with
    | nil => rfl
    | cons c t =>
      have hpre : pyStripEnd (List.dropWhile isPySpace x) <+:
          List.dropWhile isPySpace x := pyStripEnd_pre _
      rw [hh] at hpre
      obtain ⟨r, hr⟩ := hpre
      have hc : isPySpace c = false :=
        dropWhile_eq_cons_head_false isPySpace x c (t ++ r) hr.symm
      exact dropWhile_head_false_eq isPySpace c t hc
  rw [hD, pyStripEnd_idem]

theorem pyStrip_strip_append_ws (x ws : List Char)
    (hws : ∀ c ∈ ws, isPySpace c = true) :
    pyStrip (pyStrip x ++ ws) = pyStrip x := by
  rw [pyStrip_append_ws (pyStrip x) ws hws, pyStrip_idem]

theorem mem_pyStrip (x : Char) (l : List Char) (h : x ∈ pyStrip l) : x ∈ l := by
  unfold pyStrip at h
  have h2 := (pyStripEnd_pre (l.dropWhile isPySpace)).subset h
  exact (List.dropWhile_sublist isPySpace).subset h2

/-! ## Association-list lookup lemmas -/

theorem lookup_map_value {α β γ : Type} [BEq α] [LawfulBEq α] (F : α × β → γ)
    (kvs : List (α × β)) (k : α) :
    List.lookup k (kvs.map (fun p => (p.1, F p))) =
      (List.lookup k kvs).map (fun v => F (k, v)) := by
  induction kvs with
  | nil => rfl
  | cons p rest ih =>
    obtain ⟨a, b⟩ := p
    by_cases h : (k == a) = true
    · have := eq_of_beq h
      subst this
      simp [List.lookup]
    · simp only [Bool.not_eq_true] at h
      simp [List.lookup, h, ih]

theorem lookup_uniform {α β : Type} [BEq α] [LawfulBEq α]
    (kvs : List (α × β)) (k : α) (v : β) (hmem : (k, v) ∈ kvs)
    (huni : ∀ w, (k, w) ∈ kvs → w = v) : List.lookup k kvs = some v := by
  induction kvs with
  | nil => simp at hmem
  | cons p rest ih =>
    obtain ⟨a, b⟩ := p
    by_cases h : (k == a) = true
    · have := eq_of_beq h
      subst this
      simp only [List.lookup, h]
      rw [huni b (List.mem_cons_self _ _)]
    · simp only [Bool.not_eq_true] at h
      have hka : k ≠ a := fun he => by simp [he] at h
      rcases List.mem_cons.1 hmem with he | hm
      · exact absurd (congrArg Prod.fst he) hka
      · simp only [List.lookup, h]
        exact ih hm (fun w hw => huni w (List.mem_cons_of_mem _ hw))

theorem lookup_none_of_not_mem {α β : Type} [BEq α] [LawfulBEq α]
    (kvs : List (α × β)) (k : α) (h : ∀ v, (k, v) ∉ kvs) :
    List.lookup k kvs = none := by
  induction kvs with
  | nil => rfl
  | cons p rest ih =>
    obtain ⟨a, b⟩ := p
    have hka : k ≠ a := by
      intro he
      exact h b (he ▸ List.mem_cons_self _ _)
    simp only [List.lookup, beq_eq_false_iff_ne.2 hka]
    exact ih fun v hv => h v (List.mem_cons_of_mem _ hv)

theorem blockAssocR_eq_map (segs : List Seg) :
    blockAssocR segs =
      (contentAssoc segs).map (fun p => (p.1, renderSeg (.blk p.1 p.2))) := by
  induction segs with
  | nil => rfl
  | cons s rest ih =>
    cases s with
    | txt s0 => simpa [blockAssocR, contentAssoc] using ih
    | blk b c0 => simpa [blockAssocR, contentAssoc] using ih

theorem pyDictGet_blockAssocR (segs : List Seg) (k : List Char) :
    pyDictGet (blockAssocR segs) k =
      ((contentAssoc segs).reverse.lookup k).map
        (fun c => renderSeg (.blk k c)) := by
  unfold pyDictGet
  rw [blockAssocR_eq_map, ← List.map_reverse,
    lookup_map_value (fun p => renderSeg (Seg.blk p.1 p.2))]

theorem keptPairs_mem (segs : List Seg) (ordered : List (List Char))
    (p : List Char × List Char) (hp : p ∈ keptPairs segs ordered) :
    p.1 ∈ ordered ∧ (contentAssoc segs).reverse.lookup p.1 = some p.2 := by
  unfold keptPairs at hp
  obtain ⟨sid, hsid, hf⟩ := List.mem_filterMap.1 hp
  rcases ho : (contentAssoc segs).reverse.lookup sid with _ | c
  · rw [ho] at hf; simp at hf
  · rw [ho] at hf
    simp only [Option.map_some', Option.some_inj] at hf
    subst hf
    exact ⟨hsid, ho⟩

theorem kept_values (segs : List Seg) (ordered : List (List Char)) :
    ordered.filterMap (fun sid => pyDictGet (blockAssocR segs) sid) =
      (keptPairs segs ordered).map (fun p => renderSeg (.blk p.1 p.2)) := by
  unfold keptPairs
  rw [List.map_filterMap]
  refine List.filterMap_congr fun sid _ => ?_
  rw [pyDictGet_blockAssocR]
  cases (contentAssoc segs).reverse.lookup sid <;> simp

theorem pyDictGet_kept (segs : List Seg) (ordered : List (List Char))
    (sid : List Char) (hsid : sid ∈ ordered) :
    pyDictGet ((keptPairs segs ordered).map
        (fun p => (p.1, renderSeg (.blk p.1 p.2)))) sid =
      pyDictGet (blockAssocR segs) sid := by
  unfold pyDictGet
  rw [← List.map_reverse, lookup_map_value (fun p => renderSeg (Seg.blk p.1 p.2)),
    blockAssocR_eq_map, ← List.map_reverse,
    lookup_map_value (fun p => renderSeg (Seg.blk p.1 p.2))]
  congr 1
  rcases ho : (contentAssoc segs).reverse.lookup sid with _ | c
  · refine lookup_none_of_not_mem _ _ fun v hv => ?_
    have hm := keptPairs_mem segs ordered (sid, v) (List.mem_reverse.1 hv)
    rw [ho] at hm
    simp at hm
  · refine lookup_uniform _ _ _ ?_ ?_
    · rw [List.mem_reverse]
      unfold keptPairs
      exact List.mem_filterMap.2 ⟨sid, hsid, by rw [ho]; rfl⟩
    · intro w hw
      have hm := keptPairs_mem segs ordered (sid, w) (List.mem_reverse.1 hw)
      rw [ho] at hm
      exact (Option.some_inj.1 hm.2).symm

/-! ## Rebuilding the reorder output as a canonical document -/

theorem intercalate_singleton (sep a : List Char) :
    List.intercalate sep [a] = a := by
  simp [List.intercalate]

theorem intercalate_cons_ne_nil (sep a : List Char) (l : List (List Char))
    (h : l ≠ []) :
    List.intercalate sep (a :: l) = a ++ sep ++ List.intercalate sep l := by
  cases l with
  | nil => exact absurd rfl h
  | cons b l' => simp [List.intercalate, List.append_assoc]

theorem getLast?_append_right (l₁ l₂ : List Char) (h : l₂ ≠ []) :
    (l₁ ++ l₂).getLast? = l₂.getLast? := by
  induction l₁ with
  | nil => rfl
  | cons c t ih =>
    rw [List.cons_append]
    cases ht : t ++ l₂ with
    | nil => exact absurd (List.append_eq_nil.1 ht).2 h
    | cons d u => rw [List.getLast?_cons_cons, ← ht, ih]

theorem renderSeg_blk_getLast (b c : List Char) :
    (renderSeg (.blk b c)).getLast? = some '>' := by
  have hform : renderSeg (.blk b c) =
      (beginMarker b ++ '\n' :: c ++ '\n' :: (endPre ++ b)) ++ arrowSuf := by
    simp [renderSeg, newSectionText, endMarker, List.append_assoc]
  rw [hform, getLast?_append_right _ _ (by decide)]
  decide

theorem getLast?_some_ne_nil (l : List Char) (x : Char)
    (h : l.getLast? = some x) : l ≠ [] := by
  intro he
  subst he
  simp at h

theorem intercalate_blocks_getLast (sep : List Char) :
    ∀ vs : List (List Char), vs ≠ [] → (∀ v ∈ vs, v.getLast? = some '>') →
      (List.intercalate sep vs).getLast? = some '>' := by
  intro vs
  induction vs with
  | nil => intro h; exact absurd rfl h
  | cons v vs' ih =>
    intro _ hall
    cases vs' with
    | nil => rw [intercalate_singleton]; exact hall v (List.mem_cons_self _ _)
    | cons w rest =>
      have hih := ih (by simp)
        (fun u hu => hall u (List.mem_cons_of_mem _ hu))
      rw [intercalate_cons_ne_nil sep v (w :: rest) (by simp),
        getLast?_append_right _ _ (getLast?_some_ne_nil _ _ hih)]
      exact hih

theorem pyEnsureNl_ne (l : List Char) (h : l.getLast? ≠ some '\n') :
    pyEnsureNl l = l ++ ['\n'] := by
  unfold pyEnsureNl
  rw [if_neg h]

theorem render_blocksSegs (ps : List (List Char × List Char)) :
    render (blocksSegs ps) =
      List.intercalate "\n\n".data
        (ps.map (fun p => renderSeg (.blk p.1 p.2))) := by
  induction ps with
  | nil => rfl
  | cons p ps' ih =>
    obtain ⟨b, c⟩ := p
    cases ps' with
    | nil => simp [blocksSegs, render, intercalate_singleton]
    | cons q rest =>
      rw [show blocksSegs ((b, c) :: q :: rest) =
        Seg.blk b c :: Seg.txt "\n\n".data :: blocksSegs (q :: rest) from rfl,
        render_cons, render_cons, ih]
      conv_rhs => rw [List.map_cons, intercalate_cons_ne_nil _ _ _ (by simp)]
      simp [renderSeg, List.append_assoc]

theorem canonicalB_blocksSegs (ps : List (List Char × List Char))
    (h : ∀ p ∈ ps, Seg.okB (Seg.blk p.1 p.2) = true) :
    canonicalB (blocksSegs ps) = true := by
  induction ps with
  | nil => rfl
  | cons p ps' ih =>
    obtain ⟨b, c⟩ := p
    cases ps' with
    | nil =>
      simp [blocksSegs, canonicalB]
      exact h (b, c) (List.mem_cons_self _ _)
    | cons q rest =>
      rw [show blocksSegs ((b, c) :: q :: rest) =
        Seg.blk b c :: Seg.txt "\n\n".data :: blocksSegs (q :: rest) from rfl]
      simp only [canonicalB, List.all_cons, Bool.and_eq_true]
      refine ⟨h (b, c) (List.mem_cons_self _ _), ?_, ?_⟩
      · decide
      · simpa [canonicalB] using ih (fun u hu => h u (List.mem_cons_of_mem _ hu))

theorem blocksSegs_head (p : List Char × List Char)
    (ps' : List (List Char × List Char)) :
    ∃ rest', blocksSegs (p :: ps') = Seg.blk p.1 p.2 :: rest' := by
  obtain ⟨b, c⟩ := p
  cases ps' with
  | nil => exact ⟨[], rfl⟩
  | cons q rest => exact ⟨Seg.txt "\n\n".data :: blocksSegs (q :: rest), rfl⟩

theorem contentAssoc_mem (segs : List Seg) (p : List Char × List Char)
    (h : p ∈ contentAssoc segs) : Seg.blk p.1 p.2 ∈ segs := by
  unfold contentAssoc at h
  obtain ⟨s, hs, hf⟩ := List.mem_filterMap.1 h
  cases s with
  | txt s0 => simp at hf
  | blk b c0 =>
    simp only [Option.some_inj] at hf
    subst hf
    exact hs

theorem lookup_some_mem {α β : Type} [BEq α] [LawfulBEq α]
    (kvs : List (α × β)) (k : α) (v : β) (h : List.lookup k kvs = some v) :
    (k, v) ∈ kvs := by
  induction kvs with
  | nil => simp [List.lookup] at h
  | cons p rest ih =>
    obtain ⟨a, b⟩ := p
    by_cases hk : (k == a) = true
    · have := eq_of_beq hk
      subst this
      simp only [List.lookup, hk, Option.some_inj] at h
      subst h
      exact List.mem_cons_self _ _
    · simp only [Bool.not_eq_true] at hk
      simp only [List.lookup, hk] at h
      exact List.mem_cons_of_mem _ (ih h)

theorem keptPairs_okB (segs : List Seg) (ordered : List (List Char))
    (hcan : canonicalB segs = true) (p : List Char × List Char)
    (hp : p ∈ keptPairs segs ordered) : Seg.okB (Seg.blk p.1 p.2) = true := by
  obtain ⟨_, hlook⟩ := keptPairs_mem segs ordered p hp
  have hmem := contentAssoc_mem segs p
    (List.mem_reverse.1 (lookup_some_mem _ _ _ hlook))
  exact List.all_eq_true.1 hcan _ hmem

theorem blockAssocR_append (xs ys : List Seg) :
    blockAssocR (xs ++ ys) = blockAssocR xs ++ blockAssocR ys := by
  simp [blockAssocR]

theorem blockAssocR_blocksSegs (ps : List (List Char × List Char)) :
    blockAssocR (blocksSegs ps) =
      ps.map (fun p => (p.1, renderSeg (.blk p.1 p.2))) := by
  induction ps with
  | nil => rfl
  | cons p ps' ih =>
    obtain ⟨b, c⟩ := p
    cases ps' with
    | nil => rfl
    | cons q rest =>
      rw [show blocksSegs ((b, c) :: q :: rest) =
        Seg.blk b c :: Seg.txt "\n\n".data :: blocksSegs (q :: rest) from rfl]
      simp [blockAssocR] at ih ⊢
      exact ih

theorem canonicalB_takeWhile (segs : List Seg) (p : Seg → Bool)
    (hcan : canonicalB segs = true) : canonicalB (segs.takeWhile p) = true := by
  refine List.all_eq_true.2 fun s hs => ?_
  exact List.all_eq_true.1 hcan s ((List.takeWhile_sublist p).subset hs)

theorem headerPure (segs : List Seg) (hcan : canonicalB segs = true) :
    '<' ∉ pyStrip (render (segs.takeWhile Seg.isTxt)) := by
  intro h
  exact render_pure (segs.takeWhile Seg.isTxt)
    (canonicalB_takeWhile segs Seg.isTxt hcan)
    (fun s hs => List.mem_takeWhile_imp hs)
    (mem_pyStrip '<' _ h)

theorem not_mem_pureTxtB (s : List Char) (h : '<' ∉ s) : pureTxtB s = true := by
  simp only [pureTxtB, List.all_eq_true]
  intro x hx
  simp only [decide_eq_true_eq]
  intro he
  exact h (he ▸ hx)

theorem pureTxtB_ensureNl (l : List Char) (h : '<' ∉ l) :
    pureTxtB (pyEnsureNl l) = true := by
  refine not_mem_pureTxtB _ fun hm => ?_
  unfold pyEnsureNl at hm
  split at hm
  · exact h hm
  · rcases List.mem_append.1 hm with hm | hm
    · exact h hm
    · simp at hm

theorem reorderOutput_canonical (segs : List Seg) (ordered : List (List Char))
    (hcan : canonicalB segs = true) :
    canonicalB (reorderOutputSegs segs ordered) = true := by
  have hH := headerPure segs hcan
  unfold reorderOutputSegs
  cases hk : keptPairs segs ordered with
  | nil =>
    simp only [canonicalB, List.all_cons, List.all_nil, Bool.and_true]
    exact pureTxtB_ensureNl _ hH
  | cons p ps =>
    simp only [canonicalB, List.all_cons, List.all_append, Bool.and_eq_true,
      List.all_nil, Bool.and_true]
    refine ⟨?_, ?_, ?_⟩
    · show pureTxtB _ = true
      rw [pureTxtB_append, Bool.and_eq_true]
      exact ⟨not_mem_pureTxtB _ hH, by decide⟩
    · have := canonicalB_blocksSegs (p :: ps)
        (fun u hu => keptPairs_okB segs ordered hcan u (hk ▸ hu))
      simpa [canonicalB] using this
    · decide

theorem reorder_output_render (segs : List Seg) (ordered : List (List Char))
    (hcan : canonicalB segs = true) (hb : containsAnyBlk segs = true) :
    pyReorder (render segs) ordered = render (reorderOutputSegs segs ordered) := by
  rw [pyReorder_render segs ordered hcan]
  simp only [hb, if_true]
  rw [kept_values]
  unfold reorderOutputSegs
  cases hk : keptPairs segs ordered with
  | nil =>
    simp only [List.map_nil, intercalate_singleton]
    simp [render, renderSeg]
  | cons p ps =>
    have hlastJ : (List.intercalate "\n\n".data
        ((p :: ps).map (fun q => renderSeg (.blk q.1 q.2)))).getLast? =
        some '>' := by
      refine intercalate_blocks_getLast _ _ (by simp) fun v hv => ?_
      obtain ⟨q, _, hq⟩ := List.mem_map.1 hv
      rw [← hq]
      exact renderSeg_blk_getLast q.1 q.2
    rw [intercalate_cons_ne_nil _ _ _ (by simp),
      pyEnsureNl_ne _ (by
        rw [getLast?_append_right _ _ (getLast?_some_ne_nil _ _ hlastJ), hlastJ]
        simp)]
    rw [render_cons, render_append, render_blocksSegs]
    simp [renderSeg, render, List.append_assoc]

theorem blockAssocR_cons_txt (s : List Char) (xs : List Seg) :
    blockAssocR (Seg.txt s :: xs) = blockAssocR xs := by
  simp [blockAssocR]

theorem takeWhile_isTxt_output (X : List Char) (p : List Char × List Char)
    (ps : List (List Char × List Char)) (nl : List Char) :
    (Seg.txt X :: (blocksSegs (p :: ps) ++ [Seg.txt nl])).takeWhile Seg.isTxt =
      [Seg.txt X] := by
  obtain ⟨rest', hbs⟩ := blocksSegs_head p ps
  rw [hbs]
  simp [List.takeWhile_cons, Seg.isTxt]

theorem pyReorder_render_idem (segs : List Seg) (ordered : List (List Char))
    (hcan : canonicalB segs = true) :
    pyReorder (pyReorder (render segs) ordered) ordered =
      pyReorder (render segs) ordered := by
  by_cases hb : containsAnyBlk segs = true
  · have hEq : pyReorder (render segs) ordered =
        render (reorderOutputSegs segs ordered) :=
      reorder_output_render segs ordered hcan hb
    have hcan' := reorderOutput_canonical segs ordered hcan
    conv_lhs => rw [hEq]
    rw [pyReorder_render _ ordered hcan']
    unfold reorderOutputSegs at *
    cases hk : keptPairs segs ordered with
    | nil =>
      simp only [hk] at hEq ⊢
      rw [if_neg (by simp [containsAnyBlk, Seg.isTxt])]
      exact hEq.symm
    | cons p ps =>
      simp only [hk] at hEq hcan' ⊢
      obtain ⟨rest', hbs⟩ := blocksSegs_head p ps
      have hcb : containsAnyBlk (Seg.txt (pyStrip (render
          (segs.takeWhile Seg.isTxt)) ++ "\n\n".data) ::
          (blocksSegs (p :: ps) ++ [Seg.txt ['\n']])) = true := by
        rw [hbs]
        simp [containsAnyBlk, Seg.isTxt]
      rw [if_pos hcb, takeWhile_isTxt_output]
      have hH2 : pyStrip (render [Seg.txt (pyStrip (render
          (segs.takeWhile Seg.isTxt)) ++ "\n\n".data)]) =
          pyStrip (render (segs.takeWhile Seg.isTxt)) := by
        rw [show render [Seg.txt (pyStrip (render
          (segs.takeWhile Seg.isTxt)) ++ "\n\n".data)] =
          pyStrip (render (segs.takeWhile Seg.isTxt)) ++ "\n\n".data by
            simp [render, renderSeg]]
        exact pyStrip_strip_append_ws _ _ (by decide)
      rw [hH2]
      have hba : blockAssocR (Seg.txt (pyStrip (render
          (segs.takeWhile Seg.isTxt)) ++ "\n\n".data) ::
          (blocksSegs (p :: ps) ++ [Seg.txt ['\n']])) =
          (keptPairs segs ordered).map
            (fun q => (q.1, renderSeg (.blk q.1 q.2))) := by
        rw [blockAssocR_cons_txt, blockAssocR_append, blockAssocR_blocksSegs, hk]
        simp [blockAssocR]
      have hparts : ordered.filterMap (fun sid => pyDictGet (blockAssocR
          (Seg.txt (pyStrip (render (segs.takeWhile Seg.isTxt)) ++ "\n\n".data) ::
            (blocksSegs (p :: ps) ++ [Seg.txt ['\n']]))) sid) =
          ordered.filterMap (fun sid => pyDictGet (blockAssocR segs) sid) := by
        refine List.filterMap_congr fun sid hsid => ?_
        rw [hba]
        exact pyDictGet_kept segs ordered sid hsid
      rw [hparts]
      have hM : pyReorder (render segs) ordered =
          pyEnsureNl (List.intercalate "\n\n".data
            (pyStrip (render (segs.takeWhile Seg.isTxt)) ::
              ordered.filterMap (fun sid => pyDictGet (blockAssocR segs) sid))) := by
        rw [pyReorder_render segs ordered hcan]
        simp only [hb, if_true]
      exact hM.symm
  · have h1 : pyReorder (render segs) ordered = render segs := by
      rw [pyReorder_render segs ordered hcan]
      simp only [Bool.not_eq_true] at hb
      simp [hb]
    rw [h1, h1]

/-! ## C4: reorder_sections rebuild -/

/-- C4: for every writer-shaped document containing at least one
marker-delimited block, `reorder_sections` rebuilds the file as the stripped
header followed by the kept blocks in `ordered` order separated by blank
lines (with a trailing newline); every kept pair takes its id from `ordered`
and its content from a block of the document (ids in `ordered` with no block
are silently skipped, blocks whose id is absent from `ordered` are dropped,
and of several blocks sharing an id only the last survives, since the Python
dict keeps the last binding); the operation is idempotent. -/
theorem c4_reorder_sections (segs : List Seg) (ordered : List (List Char))
    (hcan : canonicalB segs = true) (hb : containsAnyBlk segs = true) :
    pyReorder (render segs) ordered = render (reorderOutputSegs segs ordered) ∧
    (∀ p ∈ keptPairs segs ordered, p.1 ∈ ordered ∧ Seg.blk p.1 p.2 ∈ segs) ∧
    pyReorder (pyReorder (render segs) ordered) ordered =
      pyReorder (render segs) ordered := by
  refine ⟨reorder_output_render segs ordered hcan hb, ?_,
    pyReorder_render_idem segs ordered hcan⟩
  intro p hp
  obtain ⟨hmem, hlook⟩ := keptPairs_mem segs ordered p hp
  exact ⟨hmem, contentAssoc_mem segs p
    (List.mem_reverse.1 (lookup_some_mem _ _ _ hlook))⟩

set_option maxRecDepth 8000 in
/-- Counterexample to C4 as stated: on a document holding two blocks that
both carry id `X`, the id `X` appears in the ordered list, yet the first of
the two blocks is dropped (the Python `blocks` dict keeps only the last
match per id), so the output does not consist of "exactly the blocks whose
ids appear in ordered_symbol_ids". -/
theorem c4_reorder_sections_cex :
    ("<!-- BEGIN: auto:X -->\nA\n<!-- END: auto:X -->").data <:+:
      ("H\n\n<!-- BEGIN: auto:X -->\nA\n<!-- END: auto:X -->\n\n<!-- BEGIN: auto:X -->\nB\n<!-- END: auto:X -->\n").data ∧
    ¬ (("<!-- BEGIN: auto:X -->\nA\n<!-- END: auto:X -->").data <:+:
      pyReorder ("H\n\n<!-- BEGIN: auto:X -->\nA\n<!-- END: auto:X -->\n\n<!-- BEGIN: auto:X -->\nB\n<!-- END: auto:X -->\n").data
        ["X".data]) := by decide

set_option maxRecDepth 8000 in
/-- Witness for C4 at the document of the spec's example: blocks Z, X, Y and
list [X, Y] give header + X + Y with Z absent, and the rebuild is idempotent. -/
theorem c4_reorder_sections_witness :
    canonicalB [Seg.txt "# Head\n\n".data, Seg.blk "Z".data "z".data,
        Seg.txt "\n\n".data, Seg.blk "X".data "x".data, Seg.txt "\n\n".data,
        Seg.blk "Y".data "y".data, Seg.txt "\n".data] = true ∧
    containsAnyBlk [Seg.txt "# Head\n\n".data, Seg.blk "Z".data "z".data,
        Seg.txt "\n\n".data, Seg.blk "X".data "x".data, Seg.txt "\n\n".data,
        Seg.blk "Y".data "y".data, Seg.txt "\n".data] = true ∧
    (pyReorder (render [Seg.txt "# Head\n\n".data, Seg.blk "Z".data "z".data,
        Seg.txt "\n\n".data, Seg.blk "X".data "x".data, Seg.txt "\n\n".data,
        Seg.blk "Y".data "y".data, Seg.txt "\n".data])
        ["X".data, "Y".data] =
      render (reorderOutputSegs [Seg.txt "# Head\n\n".data,
        Seg.blk "Z".data "z".data, Seg.txt "\n\n".data,
        Seg.blk "X".data "x".data, Seg.txt "\n\n".data,
        Seg.blk "Y".data "y".data, Seg.txt "\n".data] ["X".data, "Y".data]) ∧
      (∀ p ∈ keptPairs [Seg.txt "# Head\n\n".data, Seg.blk "Z".data "z".data,
          Seg.txt "\n\n".data, Seg.blk "X".data "x".data, Seg.txt "\n\n".data,
          Seg.blk "Y".data "y".data, Seg.txt "\n".data] ["X".data, "Y".data],
        p.1 ∈ ["X".data, "Y".data] ∧
        Seg.blk p.1 p.2 ∈ [Seg.txt "# Head\n\n".data, Seg.blk "Z".data "z".data,
          Seg.txt "\n\n".data, Seg.blk "X".data "x".data, Seg.txt "\n\n".data,
          Seg.blk "Y".data "y".data, Seg.txt "\n".data]) ∧
      pyReorder (pyReorder (render [Seg.txt "# Head\n\n".data,
          Seg.blk "Z".data "z".data, Seg.txt "\n\n".data,
          Seg.blk "X".data "x".data, Seg.txt "\n\n".data,
          Seg.blk "Y".data "y".data, Seg.txt "\n".data]) ["X".data, "Y".data])
          ["X".data, "Y".data] =
        pyReorder (render [Seg.txt "# Head\n\n".data, Seg.blk "Z".data "z".data,
          Seg.txt "\n\n".data, Seg.blk "X".data "x".data, Seg.txt "\n\n".data,
          Seg.blk "Y".data "y".data, Seg.txt "\n".data]) ["X".data, "Y".data]) ∧
    pyReorder (render [Seg.txt "# Head\n\n".data, Seg.blk "Z".data "z".data,
        Seg.txt "\n\n".data, Seg.blk "X".data "x".data, Seg.txt "\n\n".data,
        Seg.blk "Y".data "y".data, Seg.txt "\n".data]) ["X".data, "Y".data] =
      ("# Head\n\n<!-- BEGIN: auto:X -->\nx\n<!-- END: auto:X -->\n\n<!-- BEGIN: auto:Y -->\ny\n<!-- END: auto:Y -->\n").data :=
  ⟨by decide, by decide,
    c4_reorder_sections _ _ (by decide) (by decide), by decide⟩

/-! ## C5: frame preservation of the header -/

theorem headerBeforeMarker_render (segs : List Seg)
    (hcan : canonicalB segs = true) :
    headerBeforeMarker (render segs) =
      if containsAnyBlk segs then render (segs.takeWhile Seg.isTxt)
      else render segs := by
  unfold headerBeforeMarker
  rw [firstMarker_render segs hcan]
  by_cases h : containsAnyBlk segs = true
  · simp only [h, if_true]
    conv_lhs =>
      rw [show render segs = render (segs.takeWhile Seg.isTxt) ++
        render (segs.dropWhile Seg.isTxt) from by
          rw [← render_append, List.takeWhile_append_dropWhile]]
    exact List.take_left _ _
  · simp only [Bool.not_eq_true] at h
    simp [h]

theorem updSeg_isTxt (a c : List Char) (s : Seg) :
    (updSeg a c s).isTxt = s.isTxt := by
  cases s with
  | txt s0 => rfl
  | blk b c0 => by_cases hb : b = a <;> simp [updSeg, hb, Seg.isTxt]

theorem takeWhile_isTxt_map_upd (a c : List Char) (segs : List Seg) :
    (segs.map (updSeg a c)).takeWhile Seg.isTxt = segs.takeWhile Seg.isTxt := by
  induction segs with
  | nil => rfl
  | cons s rest ih =>
    cases s with
    | txt s0 => simp [updSeg, List.takeWhile_cons, Seg.isTxt, ih]
    | blk b c0 =>
      by_cases hb : b = a <;> simp [updSeg, hb, List.takeWhile_cons, Seg.isTxt]

theorem containsAnyBlk_map_upd (a c : List Char) (segs : List Seg) :
    containsAnyBlk (segs.map (updSeg a c)) = containsAnyBlk segs := by
  induction segs with
  | nil => rfl
  | cons s rest ih =>
    simp only [List.map_cons, containsAnyBlk, List.any_cons]
    rw [updSeg_isTxt]
    unfold containsAnyBlk at ih
    rw [ih]

/-- C5: `write_section` on a document that contains the written block
rewrites exactly that block (every other segment, the header included, is
unchanged byte-for-byte), while `reorder_sections` replaces the header by
its whitespace-stripped form (followed by a blank line when at least one
block is kept), so the reorder half of the claim only preserves headers
with no leading or trailing whitespace. -/
theorem c5_frame_preservation (segs : List Seg) (stem a c : List Char)
    (ordered : List (List Char)) (hcan : canonicalB segs = true)
    (ha : saneIdB a = true) (hc : pureTxtB c = true)
    (hb : containsAnyBlk segs = true) :
    (containsBlk a segs = true →
      pyWriteSection (some (render segs)) stem a c =
        render (segs.map (updSeg a c)) ∧
      headerBeforeMarker (pyWriteSection (some (render segs)) stem a c) =
        headerBeforeMarker (render segs)) ∧
    headerBeforeMarker (pyReorder (render segs) ordered) =
      (match keptPairs segs ordered with
        | [] => pyEnsureNl (pyStrip (headerBeforeMarker (render segs)))
        | _ :: _ => pyStrip (headerBeforeMarker (render segs)) ++ "\n\n".data) := by
  constructor
  · intro hblk
    have hw : pyWriteSection (some (render segs)) stem a c =
        render (segs.map (updSeg a c)) := by
      rw [pyWriteSection_render segs stem a c ha hcan]
      simp [hblk]
    refine ⟨hw, ?_⟩
    rw [hw]
    have hcan2 := canonicalB_map_upd a c ha hc segs hcan
    have hb2 : containsAnyBlk (segs.map (updSeg a c)) = true := by
      rw [containsAnyBlk_map_upd]; exact hb
    rw [headerBeforeMarker_render _ hcan2, headerBeforeMarker_render segs hcan,
      hb2, hb, if_pos rfl, if_pos rfl, takeWhile_isTxt_map_upd]
  · rw [reorder_output_render segs ordered hcan hb]
    have hcan' := reorderOutput_canonical segs ordered hcan
    rw [headerBeforeMarker_render segs hcan, hb, if_pos rfl]
    unfold reorderOutputSegs at hcan' ⊢
    cases hk : keptPairs segs ordered with
    | nil =>
      simp only [hk] at hcan' ⊢
      rw [headerBeforeMarker_render _ hcan']
      rw [if_neg (by simp [containsAnyBlk, Seg.isTxt])]
      simp [render, renderSeg]
    | cons p ps =>
      simp only [hk] at hcan' ⊢
      obtain ⟨rest', hbs⟩ := blocksSegs_head p ps
      have hcb : containsAnyBlk (Seg.txt (pyStrip (render
          (segs.takeWhile Seg.isTxt)) ++ "\n\n".data) ::
          (blocksSegs (p :: ps) ++ [Seg.txt ['\n']])) = true := by
        rw [hbs]
        simp [containsAnyBlk, Seg.isTxt]
      rw [headerBeforeMarker_render _ hcan', hcb, if_pos rfl,
        takeWhile_isTxt_output]
      simp [render, renderSeg]

set_option maxRecDepth 8000 in
/-- Counterexample to C5 as stated: on a header ending in extra whitespace
("X" followed by three newlines), `reorder_sections` strips the header down
to "X" and rejoins with exactly one blank line, so the bytes before the
first open marker are not preserved. -/
theorem c5_frame_preservation_cex :
    headerBeforeMarker (pyReorder
        ("X\n\n\n<!-- BEGIN: auto:A -->\na\n<!-- END: auto:A -->\n").data
        ["A".data]) ≠
      headerBeforeMarker
        ("X\n\n\n<!-- BEGIN: auto:A -->\na\n<!-- END: auto:A -->\n").data := by
  decide

set_option maxRecDepth 8000 in
/-- Witness for C5 at a one-block document whose header carries no leading
or trailing whitespace beyond the canonical blank line. -/
theorem c5_frame_preservation_witness :
    canonicalB [Seg.txt "# H\n\n".data, Seg.blk "A".data "a".data,
        Seg.txt "\n".data] = true ∧
    saneIdB "A".data = true ∧ pureTxtB "b".data = true ∧
    containsAnyBlk [Seg.txt "# H\n\n".data, Seg.blk "A".data "a".data,
        Seg.txt "\n".data] = true ∧
    ((containsBlk "A".data [Seg.txt "# H\n\n".data, Seg.blk "A".data "a".data,
        Seg.txt "\n".data] = true →
      pyWriteSection (some (render [Seg.txt "# H\n\n".data,
          Seg.blk "A".data "a".data, Seg.txt "\n".data])) "s".data "A".data
          "b".data =
        render ([Seg.txt "# H\n\n".data, Seg.blk "A".data "a".data,
          Seg.txt "\n".data].map (updSeg "A".data "b".data)) ∧
      headerBeforeMarker (pyWriteSection (some (render [Seg.txt "# H\n\n".data,
          Seg.blk "A".data "a".data, Seg.txt "\n".data])) "s".data "A".data
          "b".data) =
        headerBeforeMarker (render [Seg.txt "# H\n\n".data,
          Seg.blk "A".data "a".data, Seg.txt "\n".data])) ∧
    headerBeforeMarker (pyReorder (render [Seg.txt "# H\n\n".data,
        Seg.blk "A".data "a".data, Seg.txt "\n".data]) ["A".data]) =
      (match keptPairs [Seg.txt "# H\n\n".data, Seg.blk "A".data "a".data,
          Seg.txt "\n".data] ["A".data] with
        | [] => pyEnsureNl (pyStrip (headerBeforeMarker
            (render [Seg.txt "# H\n\n".data, Seg.blk "A".data "a".data,
              Seg.txt "\n".data])))
        | _ :: _ => pyStrip (headerBeforeMarker
            (render [Seg.txt "# H\n\n".data, Seg.blk "A".data "a".data,
              Seg.txt "\n".data])) ++ "\n\n".data)) :=
  ⟨by decide, by decide, by decide, by decide,
    c5_frame_preservation [Seg.txt "# H\n\n".data, Seg.blk "A".data "a".data,
      Seg.txt "\n".data] "s".data "A".data "b".data ["A".data]
      (by decide) (by decide) (by decide) (by decide)⟩

/-! ## C10: ids with spaces and block retention -/

theorem blockMatchLen_some_id (text : List Char) (u : List Char) (len : Nat)
    (h : blockMatchLen text = some (u, len)) : u ≠ [] ∧ ' ' ∉ u := by
  unfold blockMatchLen at h
  split at h
  · simp only [] at h
    split at h
    · simp at h
    · split at h
      · split at h
        · simp only [Option.some_inj, Prod.mk.injEq] at h
          obtain ⟨hu, _⟩ := h
          subst hu
          refine ⟨by assumption, fun hm => ?_⟩
          have := List.mem_takeWhile_imp hm
          simp at this
        · simp at h
      · simp at h
  · simp at h

theorem findBlocksN_ids (fuel : Nat) : ∀ (text : List Char)
    (u blob : List Char), (u, blob) ∈ findBlocksN fuel text →
    u ≠ [] ∧ ' ' ∉ u := by
  induction fuel with
  | zero =>
    intro text u blob h
    simp [findBlocksN] at h
  | succ f ih =>
    intro text u blob h
    rw [findBlocksN_succ] at h
    rcases hm : blockMatchLen text with _ | p
    · rw [hm] at h
      cases text with
      | nil => simp at h
      | cons c t => exact ih t u blob h
    · obtain ⟨u0, len⟩ := p
      rw [hm] at h
      rcases List.mem_cons.1 h with he | hmem
      · obtain ⟨hu, _⟩ := Prod.mk.injEq .. ▸ he
        exact hu ▸ blockMatchLen_some_id text u0 len hm
      · exact ih _ u blob hmem

theorem findBlocks_no_space_id (text : List Char) (aBad : List Char)
    (hbad : ' ' ∈ aBad) : pyDictGet (findBlocks text) aBad = none := by
  unfold pyDictGet
  refine lookup_none_of_not_mem _ _ fun v hv => ?_
  have := findBlocksN_ids text.length text aBad v (List.mem_reverse.1 hv)
  exact this.2 hbad

theorem mem_infix_intercalate (sep : List Char) (parts : List (List Char))
    (x : List Char) (hx : x ∈ parts) : x <:+: List.intercalate sep parts := by
  induction parts with
  | nil => simp at hx
  | cons a l ih =>
    rcases List.mem_cons.1 hx with rfl | hx'
    · cases l with
      | nil =>
        rw [intercalate_singleton]
      | cons b m =>
        rw [intercalate_cons_ne_nil _ _ _ (by simp)]
        exact ⟨[], sep ++ List.intercalate sep (b :: m),
          by simp [List.append_assoc]⟩
    · cases l with
      | nil => simp at hx'
      | cons b m =>
        rw [intercalate_cons_ne_nil _ _ _ (by simp)]
        exact List.IsInfix.trans (ih hx')
          ⟨a ++ sep, [], by simp [List.append_assoc]⟩

theorem infix_pyEnsureNl (x l : List Char) (h : x <:+: l) :
    x <:+: pyEnsureNl l := by
  unfold pyEnsureNl
  split
  · exact h
  · exact List.IsInfix.trans h ⟨[], ['\n'], by simp⟩

/-- C10: block ids parsed by `reorder_sections` are exactly the maximal
space-free runs after the BEGIN prefix, matched again in the END marker: a
block of a writer-shaped document whose space-free id is the only one with
that id and appears in the ordered list is retained verbatim, markers
included, while an id containing a space is never a key of the parsed block
map of any document, so such a block is dropped even when the id is listed. -/
theorem c10_space_free_ids (segs : List Seg) (ordered : List (List Char))
    (a c : List Char) (text aBad : List Char)
    (hcan : canonicalB segs = true)
    (hfil : (contentAssoc segs).filter (fun p => p.1 == a) = [(a, c)])
    (hord : a ∈ ordered) (hbad : ' ' ∈ aBad) :
    renderSeg (.blk a c) <:+: pyReorder (render segs) ordered ∧
    pyDictGet (findBlocks text) aBad = none := by
  refine ⟨?_, findBlocks_no_space_id text aBad hbad⟩
  have hmemca : (a, c) ∈ contentAssoc segs :=
    List.mem_of_mem_filter (hfil ▸ List.mem_cons_self _ _)
  have hmem : Seg.blk a c ∈ segs := contentAssoc_mem segs (a, c) hmemca
  have huniq : ∀ w, (a, w) ∈ contentAssoc segs → w = c := by
    intro w hw
    have hwf : (a, w) ∈ (contentAssoc segs).filter (fun p => p.1 == a) :=
      List.mem_filter.2 ⟨hw, by simp⟩
    rw [hfil] at hwf
    have := List.mem_singleton.1 hwf
    exact (Prod.mk.injEq .. ▸ this).2
  have hb : containsAnyBlk segs = true := by
    unfold containsAnyBlk
    exact List.any_eq_true.2 ⟨Seg.blk a c, hmem, rfl⟩
  rw [pyReorder_render segs ordered hcan]
  simp only [hb, if_true]
  have hlook : pyDictGet (blockAssocR segs) a = some (renderSeg (.blk a c)) := by
    rw [pyDictGet_blockAssocR,
      lookup_uniform _ a c (List.mem_reverse.2 hmemca)
        (fun w hw => huniq w (List.mem_reverse.1 hw))]
    rfl
  have hpart : renderSeg (.blk a c) ∈
      ordered.filterMap (fun sid => pyDictGet (blockAssocR segs) sid) :=
    List.mem_filterMap.2 ⟨a, hord, hlook⟩
  exact infix_pyEnsureNl _ _ (mem_infix_intercalate _ _ _
    (List.mem_cons_of_mem _ hpart))

set_option maxRecDepth 8000 in
/-- Witness for C10: the space-free block `A` is retained by a reorder
listing it, and the id "B C" is not a key of the block map even for a
document that visually contains a "B C" block. -/
theorem c10_space_free_ids_witness :
    canonicalB [Seg.txt "# H\n\n".data, Seg.blk "A".data "a".data,
        Seg.txt "\n".data] = true ∧
    (contentAssoc [Seg.txt "# H\n\n".data, Seg.blk "A".data "a".data,
        Seg.txt "\n".data]).filter (fun p => p.1 == "A".data) =
      [("A".data, "a".data)] ∧
    "A".data ∈ ["A".data, "B C".data] ∧ ' ' ∈ "B C".data ∧
    (renderSeg (.blk "A".data "a".data) <:+:
      pyReorder (render [Seg.txt "# H\n\n".data, Seg.blk "A".data "a".data,
        Seg.txt "\n".data]) ["A".data, "B C".data] ∧
    pyDictGet (findBlocks
        ("<!-- BEGIN: auto:B C -->\nz\n<!-- END: auto:B C -->").data)
      "B C".data = none) :=
  ⟨by decide, by decide, by decide, by decide,
    c10_space_free_ids [Seg.txt "# H\n\n".data, Seg.blk "A".data "a".data,
      Seg.txt "\n".data] ["A".data, "B C".data] "A".data "a".data
      ("<!-- BEGIN: auto:B C -->\nz\n<!-- END: auto:B C -->").data "B C".data
      (by decide) (by decide) (by decide) (by decide)⟩

/-! ## C1: agent-loop termination, call counting, exception behaviour -/

theorem agentLoopIter_zero (j : String → Option JVal) (e : Nat → LMEvent)
    (i : Nat) (st : AgentState) : agentLoopIter j e 0 i st = (none, st, 0) := rfl

theorem agentLoopIter_succ (j : String → Option JVal) (e : Nat → LMEvent)
    (n i : Nat) (st : AgentState) :
    agentLoopIter j e (n + 1) i st =
      match agentStep j (e i) st with
      | (some data, st') => (some data, st', 1)
      | (none, st') =>
        let r := agentLoopIter j e n (i + 1) st'
        (r.1, r.2.1, r.2.2 + 1) := rfl

theorem agentLoopIter_calls_le (j : String → Option JVal) (e : Nat → LMEvent) :
    ∀ (n i : Nat) (st : AgentState), (agentLoopIter j e n i st).2.2 ≤ n := by
  intro n
  induction n with
  | zero => intro i st; simp [agentLoopIter_zero]
  | succ m ih =>
    intro i st
    rw [agentLoopIter_succ]
    rcases hs : agentStep j (e i) st with ⟨res, st'⟩
    cases res with
    | some d => simp
    | none =>
      simp only []
      have := ih (i + 1) st'
      omega

theorem agentLoopIter_none_calls (j : String → Option JVal) (e : Nat → LMEvent) :
    ∀ (n i : Nat) (st : AgentState), (agentLoopIter j e n i st).1 = none →
      (agentLoopIter j e n i st).2.2 = n := by
  intro n
  induction n with
  | zero => intro i st _; simp [agentLoopIter_zero]
  | succ m ih =>
    intro i st h
    rw [agentLoopIter_succ] at h ⊢
    rcases hs : agentStep j (e i) st with ⟨res, st'⟩
    rw [hs] at h
    cases res with
    | some d => simp at h
    | none =>
      simp only [] at h ⊢
      have := ih (i + 1) st' h
      omega

theorem agentStep_some_terminal (j : String → Option JVal) (ev : LMEvent)
    (st : AgentState) (d : JVal) (st' : AgentState)
    (h : agentStep j ev st = (some d, st')) : isTerminalB d = true := by
  cases ev with
  | raise e => simp [agentStep] at h
  | ret response toolOut =>
    unfold agentStep at h
    simp only [] at h
    rcases hj : j (stripFences response) with _ | data
    · rw [hj] at h; simp at h
    · rw [hj] at h
      cases data with
      | str s => simp at h
      | other t => simp at h
      | dict fields =>
        simp only [] at h
        rcases hl : fields.lookup "action" with _ | v
        · rw [hl] at h; simp at h
        · rw [hl] at h
          cases v with
          | str a =>
            simp only [] at h
            by_cases ha : a = "FINISH"
            · rw [if_pos ha] at h
              simp only [Prod.mk.injEq, Option.some_inj] at h
              obtain ⟨hd, _⟩ := h
              subst hd
              simp [isTerminalB, hl, ha]
            · rw [if_neg ha] at h
              split at h <;> simp at h
          | dict f2 => simp at h
          | other t => simp at h

theorem agentStep_not_finish (j : String → Option JVal) (ev : LMEvent)
    (st : AgentState) (h : isFinishEvent j ev = false) :
    (agentStep j ev st).1 = none := by
  cases ev with
  | raise e => rfl
  | ret response toolOut =>
    unfold agentStep
    unfold isFinishEvent at h
    simp only [] at h
    simp only []
    rcases hj : j (stripFences response) with _ | data
    · rfl
    · rw [hj] at h
      cases data with
      | str s => rfl
      | other t => rfl
      | dict fields =>
        simp only [] at h ⊢
        rcases hl : fields.lookup "action" with _ | v
        · rfl
        · cases v with
          | str a =>
            rw [hl] at h
            have h' : a ≠ "FINISH" := by simpa using h
            simp only []
            rw [if_neg h']
            split <;> rfl
          | dict f2 => rfl
          | other t => rfl

theorem agentLoopIter_some_terminal (j : String → Option JVal)
    (e : Nat → LMEvent) : ∀ (n i : Nat) (st : AgentState) (v : JVal),
    (agentLoopIter j e n i st).1 = some v → isTerminalB v = true := by
  intro n
  induction n with
  | zero => intro i st v h; simp [agentLoopIter_zero] at h
  | succ m ih =>
    intro i st v h
    rw [agentLoopIter_succ] at h
    rcases hs : agentStep j (e i) st with ⟨res, st'⟩
    rw [hs] at h
    cases res with
    | some d =>
      simp only [Option.some_inj] at h
      exact h ▸ agentStep_some_terminal j (e i) st d st' hs
    | none =>
      simp only [] at h
      exact ih (i + 1) st' v h

theorem agentLoopIter_no_finish (j : String → Option JVal)
    (e : Nat → LMEvent) : ∀ (n i : Nat) (st : AgentState),
    (∀ k, k < n → isFinishEvent j (e (i + k)) = false) →
    (agentLoopIter j e n i st).1 = none := by
  intro n
  induction n with
  | zero => intro i st _; rfl
  | succ m ih =>
    intro i st hfin
    rw [agentLoopIter_succ]
    rcases hs : agentStep j (e i) st with ⟨res, st'⟩
    have h0 : isFinishEvent j (e i) = false := by
      have := hfin 0 (by omega)
      simpa using this
    have hnone : res = none := by
      have := agentStep_not_finish j (e i) st h0
      rw [hs] at this
      exact this
    subst hnone
    simp only []
    refine ih (i + 1) st' fun k hk => ?_
    have := hfin (k + 1) (by omega)
    rw [show i + (k + 1) = i + 1 + k by omega] at this
    exact this

theorem isTerminalB_finishWrap (s : String) :
    isTerminalB (finishWrap s) = true := rfl

/-- C1 (amended): when every completion call returns and `max_steps ≥ 1`,
`run_agent_loop` always returns a terminal payload without raising, makes at
most `max_steps + 1` completion calls, and when no call yields a FINISH
action within `max_steps` steps it makes exactly `max_steps` loop iterations
plus one fallback call; the original claim's "for every max_steps" fails at
`max_steps = 0`, where the fallback handler reads the unbound local
`response` and an UnboundLocalError escapes. -/
theorem c1_agent_loop (jsonLoads : String → Option JVal)
    (events : Nat → LMEvent) (max_steps : Nat)
    (hret : ∀ n, (events n).isRet = true) (hpos : 1 ≤ max_steps) :
    (∃ v, (runAgentLoop jsonLoads events max_steps).1 = LoopResult.ret v ∧
      isTerminalB v = true) ∧
    (runAgentLoop jsonLoads events max_steps).2 ≤ max_steps + 1 ∧
    ((∀ k, k < max_steps → isFinishEvent jsonLoads (events k) = false) →
      (runAgentLoop jsonLoads events max_steps).2 = max_steps + 1) := by
  unfold runAgentLoop
  rcases hiter : agentLoopIter jsonLoads events max_steps 0 ⟨[], none⟩
    with ⟨res, st, c⟩
  cases res with
  | some data =>
    simp only []
    have hcle : c ≤ max_steps := by
      have := agentLoopIter_calls_le jsonLoads events max_steps 0 ⟨[], none⟩
      rw [hiter] at this
      exact this
    refine ⟨⟨data, rfl, ?_⟩, by omega, fun hfin => ?_⟩
    · exact agentLoopIter_some_terminal jsonLoads events max_steps 0 ⟨[], none⟩
        data (by rw [hiter])
    · exfalso
      have := agentLoopIter_no_finish jsonLoads events max_steps 0 ⟨[], none⟩
        (fun k hk => by simpa using hfin k hk)
      rw [hiter] at this
      simp at this
  | none =>
    have hms : ¬ max_steps = 0 := by omega
    have hc : c = max_steps := by
      have := agentLoopIter_none_calls jsonLoads events max_steps 0 ⟨[], none⟩
        (by rw [hiter])
      rw [hiter] at this
      exact this
    simp only []
    rw [if_neg hms]
    cases hev : events max_steps with
    | raise m =>
      exfalso
      have := hret max_steps
      rw [hev] at this
      simp [LMEvent.isRet] at this
    | ret response toolOut =>
      simp only []
      rcases hj : jsonLoads (stripFences response) with _ | data
      · exact ⟨⟨finishWrap response, rfl, isTerminalB_finishWrap response⟩,
          by show c + 1 ≤ max_steps + 1; omega, fun _ => by show c + 1 = max_steps + 1; omega⟩
      · cases data with
        | str s =>
          exact ⟨⟨finishWrap response, rfl, isTerminalB_finishWrap response⟩,
            by show c + 1 ≤ max_steps + 1; omega, fun _ => by show c + 1 = max_steps + 1; omega⟩
        | other t =>
          exact ⟨⟨finishWrap response, rfl, isTerminalB_finishWrap response⟩,
            by show c + 1 ≤ max_steps + 1; omega, fun _ => by show c + 1 = max_steps + 1; omega⟩
        | dict fields =>
          simp only []
          rcases hl : fields.lookup "action" with _ | v
          · exact ⟨⟨finishWrap (jsonStr (.dict fields)), rfl,
              isTerminalB_finishWrap _⟩, by show c + 1 ≤ max_steps + 1; omega, fun _ => by show c + 1 = max_steps + 1; omega⟩
          · cases v with
            | str a =>
              simp only []
              by_cases ha : a = "FINISH"
              · rw [if_pos ha]
                refine ⟨⟨.dict fields, rfl, ?_⟩, by show c + 1 ≤ max_steps + 1; omega, fun _ => by show c + 1 = max_steps + 1; omega⟩
                simp [isTerminalB, hl, ha]
              · rw [if_neg ha]
                exact ⟨⟨finishWrap (jsonStr (.dict fields)), rfl,
                  isTerminalB_finishWrap _⟩, by show c + 1 ≤ max_steps + 1; omega, fun _ => by show c + 1 = max_steps + 1; omega⟩
            | dict f2 =>
              exact ⟨⟨finishWrap (jsonStr (.dict fields)), rfl,
                isTerminalB_finishWrap _⟩, by show c + 1 ≤ max_steps + 1; omega, fun _ => by show c + 1 = max_steps + 1; omega⟩
            | other t =>
              exact ⟨⟨finishWrap (jsonStr (.dict fields)), rfl,
                isTerminalB_finishWrap _⟩, by show c + 1 ≤ max_steps + 1; omega, fun _ => by show c + 1 = max_steps + 1; omega⟩

/-- Counterexample to C1 as stated: at `max_steps = 0` the loop body never
binds `chain` or `response`; the fallback's exception handler evaluates
`str(response)` and the UnboundLocalError propagates to the caller instead
of a terminal payload being returned. -/
theorem c1_agent_loop_cex :
    (runAgentLoop (fun _ => none) (fun _ => LMEvent.ret "x" "") 0).1 =
      LoopResult.raised "UnboundLocalError: response" := rfl

/-- Witness for C1 at `max_steps = 1` with a stream of well-behaved calls
that never parse as JSON: one loop iteration plus one fallback call. -/
theorem c1_agent_loop_witness :
    (∀ n : Nat, ((fun _ : Nat => LMEvent.ret "x" "") n).isRet = true) ∧
    1 ≤ 1 ∧
    ((∃ v, (runAgentLoop (fun _ => none) (fun _ : Nat => LMEvent.ret "x" "")
          1).1 = LoopResult.ret v ∧ isTerminalB v = true) ∧
    (runAgentLoop (fun _ => none) (fun _ : Nat => LMEvent.ret "x" "") 1).2 ≤
      1 + 1 ∧
    ((∀ k, k < 1 → isFinishEvent (fun _ => none)
        ((fun _ : Nat => LMEvent.ret "x" "") k) = false) →
      (runAgentLoop (fun _ => none) (fun _ : Nat => LMEvent.ret "x" "") 1).2 =
        1 + 1)) :=
  ⟨fun _ => rfl, by decide,
    c1_agent_loop (fun _ => none) (fun _ => LMEvent.ret "x" "") 1
      (fun _ => rfl) (by decide)⟩

/-! ## C9: QdrantStore.add length check and point construction -/

/-- C9: `QdrantStore.add` fails with the ValueError message whenever the
vector and metadata counts differ, before any point exists; under the
equal-length precondition it builds exactly one point per (vector, metadata)
pair, with that metadata dict as the point payload, that vector, and the
md5-UUID point id of the metadata's symbol_id. -/
theorem c9_qdrant_add {α : Type} (md5hex : String → String)
    (vectors : List α) (metadatas : List SymMeta) :
    (vectors.length ≠ metadatas.length →
      qdrantAdd md5hex vectors metadatas =
        .error "Vectors and metadata must have same length") ∧
    (vectors.length = metadatas.length →
      ∃ pts, qdrantAdd md5hex vectors metadatas = .ok pts ∧
        pts.length = vectors.length ∧
        ∀ i (hi : i < pts.length), ∃ (hv : i < vectors.length)
            (hm : i < metadatas.length),
          (pts.get ⟨i, hi⟩).payload = metadatas.get ⟨i, hm⟩ ∧
          (pts.get ⟨i, hi⟩).vector = vectors.get ⟨i, hv⟩ ∧
          (pts.get ⟨i, hi⟩).id =
            qdrantPointId md5hex (metadatas.get ⟨i, hm⟩).symbol_id) := by
  constructor
  · intro h
    simp [qdrantAdd, h]
  · intro h
    refine ⟨(vectors.zip metadatas).map (fun vm =>
        (⟨qdrantPointId md5hex vm.2.symbol_id, vm.1, vm.2⟩ : QPoint α)),
      by simp [qdrantAdd, h], ?_, ?_⟩
    · simp [h]
    · intro i hi
      have hlen : ((vectors.zip metadatas).map fun vm =>
          (⟨qdrantPointId md5hex vm.2.symbol_id, vm.1, vm.2⟩ : QPoint α)).length =
          vectors.length := by simp [h]
      have hv : i < vectors.length := by rw [hlen] at hi; exact hi
      have hm : i < metadatas.length := by omega
      refine ⟨hv, hm, ?_, ?_, ?_⟩ <;>
        simp [List.get_eq_getElem, List.getElem_map, List.getElem_zip]

/-- Witness for C9: a mismatched call errors, a matched one-pair call builds
its single point. -/
theorem c9_qdrant_add_witness :
    (qdrantAdd (fun s => s) [(1 : Nat)] ([] : List SymMeta) =
      .error "Vectors and metadata must have same length") ∧
    (∃ pts, qdrantAdd (fun s => s) [(1 : Nat)]
        [⟨"a", "q", "f", "k", "h"⟩] = .ok pts ∧
      pts.length = [(1 : Nat)].length ∧
      ∀ i (hi : i < pts.length), ∃ (hv : i < [(1 : Nat)].length)
          (hm : i < [(⟨"a", "q", "f", "k", "h"⟩ : SymMeta)].length),
        (pts.get ⟨i, hi⟩).payload =
          [(⟨"a", "q", "f", "k", "h"⟩ : SymMeta)].get ⟨i, hm⟩ ∧
        (pts.get ⟨i, hi⟩).vector = [(1 : Nat)].get ⟨i, hv⟩ ∧
        (pts.get ⟨i, hi⟩).id = qdrantPointId (fun s => s)
          ([(⟨"a", "q", "f", "k", "h"⟩ : SymMeta)].get ⟨i, hm⟩).symbol_id) :=
  ⟨(c9_qdrant_add (fun s => s) [(1 : Nat)] []).1 (by decide),
    (c9_qdrant_add (fun s => s) [(1 : Nat)]
      [⟨"a", "q", "f", "k", "h"⟩]).2 (by decide)⟩

/-! ## C8: point identity agreement between deletion and upsert paths -/

/-- C8: the deletion path of run_indexing and the upsert path of
`QdrantStore.add` derive the identical point id for every symbol_id — the
md5 hexdigest reformatted as a canonical UUID string — and every point a
successful `add` upserts carries exactly that id for its payload's
symbol_id, so the id is a pure deterministic function of symbol_id and a
re-upsert addresses the same point. -/
theorem c8_point_identity {α : Type} (md5hex : String → String) (sid : String)
    (vectors : List α) (metadatas : List SymMeta) (pts : List (QPoint α))
    (h : qdrantAdd md5hex vectors metadatas = .ok pts) :
    runIndexingPointId md5hex sid = qdrantPointId md5hex sid ∧
    ∀ p ∈ pts, p.id = uuidFromHex (md5hex p.payload.symbol_id) := by
  refine ⟨rfl, ?_⟩
  intro p hp
  unfold qdrantAdd at h
  split at h
  · simp at h
  · simp only [Except.ok.injEq] at h
    subst h
    obtain ⟨vm, _, hvm⟩ := List.mem_map.1 hp
    rw [← hvm]
    rfl

/-- Witness for C8: the two derivations agree on a concrete symbol_id and
the single point of a successful one-pair `add` carries the derived id. -/
theorem c8_point_identity_witness :
    qdrantAdd (fun s => s) [(1 : Nat)] [⟨"a", "q", "f", "k", "h"⟩] =
      .ok [⟨"a----", 1, ⟨"a", "q", "f", "k", "h"⟩⟩] ∧
    (runIndexingPointId (fun s => s) "x" = qdrantPointId (fun s => s) "x" ∧
     ∀ p ∈ [(⟨"a----", 1, ⟨"a", "q", "f", "k", "h"⟩⟩ : QPoint Nat)],
       p.id = uuidFromHex ((fun s : String => s) p.payload.symbol_id)) :=
  ⟨rfl, c8_point_identity (fun s => s) "x" [(1 : Nat)]
    [⟨"a", "q", "f", "k", "h"⟩] [⟨"a----", 1, ⟨"a", "q", "f", "k", "h"⟩⟩] rfl⟩

/-! ## C7 and C3: run_indexing classification -/

theorem classifySymbols_eq (eh : List (String × String)) (syms : List PySymbol) :
    classifySymbols eh syms =
      (syms.filter (fun s => !hashUnchanged eh s && isIndexableKind s),
       syms.filter (fun s => !hashUnchanged eh s && isIndexableKind s),
       syms.countP (fun s => hashUnchanged eh s)) := by
  induction syms with
  | nil => rfl
  | cons s rest ih =>
    simp only [classifySymbols, ih]
    by_cases h1 : hashUnchanged eh s <;> by_cases h2 : isIndexableKind s <;>
      simp [h1, h2, List.filter_cons, List.countP_cons]

theorem hashUnchanged_nil (s : PySymbol) : hashUnchanged [] s = false := by
  simp [hashUnchanged, sDictGet, List.lookup]

theorem foldl_append_acc {β : Type} (g : String → List β) :
    ∀ (l : List String) (acc : List β),
      l.foldl (fun a f => a ++ g f) acc = acc ++ l.foldl (fun a f => a ++ g f) [] := by
  intro l
  induction l with
  | nil => intro acc; simp
  | cons f t ih =>
    intro acc
    rw [List.foldl_cons, List.foldl_cons, ih (acc ++ g f), ih ([] ++ g f)]
    simp

theorem deletedForFiles_mem (changed : List String)
    (existBF currBF : List (String × List String)) (id : String) :
    id ∈ deletedForFiles changed existBF currBF ↔
      ∃ f ∈ changed, id ∈ fileMapGet existBF f ∧ id ∉ fileMapGet currBF f := by
  unfold deletedForFiles
  induction changed with
  | nil => simp
  | cons f t ih =>
    rw [List.foldl_cons, foldl_append_acc]
    simp only [List.nil_append, List.mem_append, ih, List.mem_filter,
      List.mem_cons]
    constructor
    · rintro (hf | ⟨g, hg, hin, hnot⟩)
      · exact ⟨f, Or.inl rfl, hf.1, by simpa using hf.2⟩
      · exact ⟨g, Or.inr hg, hin, hnot⟩
    · rintro ⟨g, hg | hg, hin, hnot⟩
      · exact Or.inl ⟨hg ▸ hin, by subst hg; simpa using hnot⟩
      · exact Or.inr ⟨g, hg, hin, hnot⟩

theorem fileMapGet_nil (f : String) : fileMapGet [] f = [] := rfl

theorem deletedForFiles_nil_exist (changed : List String)
    (currBF : List (String × List String)) :
    deletedForFiles changed [] currBF = [] := by
  rcases h : deletedForFiles changed [] currBF with _ | ⟨x, t⟩
  · rfl
  · exfalso
    have : x ∈ deletedForFiles changed [] currBF := by
      rw [h]; exact List.mem_cons_self _ _
    rw [deletedForFiles_mem] at this
    obtain ⟨f, _, hin, _⟩ := this
    rw [fileMapGet_nil] at hin
    simp at hin

theorem runIndexing_eq (pathNorm md5hex : String → String)
    (changed : List String) (current : List PySymbol)
    (scroll : Except String (List ScrollPayload)) (hne : changed ≠ []) :
    runIndexing pathNorm md5hex changed current scroll =
      let em := match scroll with
        | .ok ps => buildExisting pathNorm ps
        | .error _ => ([], [])
      let deletedAll := deletedForFiles changed em.2 (currentByFile pathNorm current)
      let r := classifySymbols em.1 current
      ⟨em.1, deletedAll, deletedAll.map (runIndexingPointId md5hex), r.1, r.2.1,
        r.2.2, r.2.1.map (fun s => s.qualname ++ ": " ++ s.docstring),
        r.2.1.map (fun s => ⟨s.symbol_id, s.qualname, s.file, s.kind, s.hash⟩)⟩ := by
  unfold runIndexing
  rw [if_neg hne]

/-- C7: when the vector-store scroll fails, run_indexing proceeds with an
empty existing-hash map: nothing is skipped as unchanged, no deletion is
derived, and every current symbol of kind class/function/method is
re-embedded. -/
theorem c7_scroll_failure (pathNorm md5hex : String → String)
    (changed : List String) (current : List PySymbol) (e : String)
    (hne : changed ≠ []) :
    (runIndexing pathNorm md5hex changed current (.error e)).existingHashes = [] ∧
    (runIndexing pathNorm md5hex changed current (.error e)).deletedIds = [] ∧
    (runIndexing pathNorm md5hex changed current (.error e)).skippedCount = 0 ∧
    (runIndexing pathNorm md5hex changed current (.error e)).toEmbed =
      current.filter isIndexableKind ∧
    (runIndexing pathNorm md5hex changed current (.error e)).changedSymbols =
      current.filter isIndexableKind := by
  rw [runIndexing_eq _ _ _ _ _ hne]
  simp only []
  rw [classifySymbols_eq]
  refine ⟨trivial, deletedForFiles_nil_exist changed (currentByFile pathNorm current),
    ?_, ?_, ?_⟩
  · simp [List.countP_eq_zero, hashUnchanged_nil]
  · exact List.filter_congr fun s _ => by rw [hashUnchanged_nil]; simp
  · exact List.filter_congr fun s _ => by rw [hashUnchanged_nil]; simp

/-- Witness for C7 at one changed file with one class symbol and one
non-indexable symbol: only the class is re-embedded, nothing is skipped. -/
theorem c7_scroll_failure_witness :
    (["f"] : List String) ≠ [] ∧
    ((runIndexing (fun s => s) (fun s => s) ["f"]
        [⟨"A", "class", "f", "A", none, 1, "", 2, "h1"⟩,
         ⟨"M", "module", "f", "M", none, 1, "", 2, "h2"⟩]
        (.error "boom")).existingHashes = [] ∧
    (runIndexing (fun s => s) (fun s => s) ["f"]
        [⟨"A", "class", "f", "A", none, 1, "", 2, "h1"⟩,
         ⟨"M", "module", "f", "M", none, 1, "", 2, "h2"⟩]
        (.error "boom")).deletedIds = [] ∧
    (runIndexing (fun s => s) (fun s => s) ["f"]
        [⟨"A", "class", "f", "A", none, 1, "", 2, "h1"⟩,
         ⟨"M", "module", "f", "M", none, 1, "", 2, "h2"⟩]
        (.error "boom")).skippedCount = 0 ∧
    (runIndexing (fun s => s) (fun s => s) ["f"]
        [⟨"A", "class", "f", "A", none, 1, "", 2, "h1"⟩,
         ⟨"M", "module", "f", "M", none, 1, "", 2, "h2"⟩]
        (.error "boom")).toEmbed =
      [⟨"A", "class", "f", "A", none, 1, "", 2, "h1"⟩,
       ⟨"M", "module", "f", "M", none, 1, "", 2, "h2"⟩].filter isIndexableKind ∧
    (runIndexing (fun s => s) (fun s => s) ["f"]
        [⟨"A", "class", "f", "A", none, 1, "", 2, "h1"⟩,
         ⟨"M", "module", "f", "M", none, 1, "", 2, "h2"⟩]
        (.error "boom")).changedSymbols =
      [⟨"A", "class", "f", "A", none, 1, "", 2, "h1"⟩,
       ⟨"M", "module", "f", "M", none, 1, "", 2, "h2"⟩].filter isIndexableKind) :=
  ⟨by decide, c7_scroll_failure (fun s => s) (fun s => s) ["f"]
    [⟨"A", "class", "f", "A", none, 1, "", 2, "h1"⟩,
     ⟨"M", "module", "f", "M", none, 1, "", 2, "h2"⟩] "boom" (by decide)⟩

/-- C3: for a non-empty changed-file list, run_indexing re-embeds exactly
the current symbols of indexable kind whose stored hash is absent or
different, counts as skipped exactly the symbols whose stored hash matches,
derives the deleted ids per changed file as stored-ids minus current-ids,
and issues the vector-store delete for exactly the md5-UUID point ids of
those deleted ids. -/
theorem c3_classification (pathNorm md5hex : String → String)
    (changed : List String) (current : List PySymbol)
    (ps : List ScrollPayload) (hne : changed ≠ []) :
    (runIndexing pathNorm md5hex changed current (.ok ps)).toEmbed =
      current.filter (fun s =>
        !hashUnchanged (runIndexing pathNorm md5hex changed current
          (.ok ps)).existingHashes s && isIndexableKind s) ∧
    (runIndexing pathNorm md5hex changed current (.ok ps)).changedSymbols =
      current.filter (fun s =>
        !hashUnchanged (runIndexing pathNorm md5hex changed current
          (.ok ps)).existingHashes s && isIndexableKind s) ∧
    (runIndexing pathNorm md5hex changed current (.ok ps)).skippedCount =
      current.countP (fun s => hashUnchanged (runIndexing pathNorm md5hex
        changed current (.ok ps)).existingHashes s) ∧
    (∀ id, id ∈ (runIndexing pathNorm md5hex changed current (.ok ps)).deletedIds ↔
      ∃ f ∈ changed, id ∈ fileMapGet (buildExisting pathNorm ps).2 f ∧
        id ∉ fileMapGet (currentByFile pathNorm current) f) ∧
    (runIndexing pathNorm md5hex changed current (.ok ps)).pointIdsToDelete =
      (runIndexing pathNorm md5hex changed current (.ok ps)).deletedIds.map
        (runIndexingPointId md5hex) := by
  rw [runIndexing_eq _ _ _ _ _ hne]
  simp only []
  rw [classifySymbols_eq]
  simp only []
  refine ⟨trivial, trivial, trivial, fun id => ?_, trivial⟩
  exact deletedForFiles_mem changed (buildExisting pathNorm ps).2
    (currentByFile pathNorm current) id

set_option maxRecDepth 8000 in
/-- Witness for C3 at the spec's example: stored A:h1, B:h2, D:hd for file
f, current A:h1, B:h2x, C:h3 — A is skipped, B and C are re-embedded, D is
deleted. -/
theorem c3_classification_witness :
    (["f"] : List String) ≠ [] ∧
    ((runIndexing (fun s => s) (fun s => s) ["f"]
      [⟨"A", "class", "f", "A", none, 1, "", 2, "h1"⟩,
       ⟨"B", "class", "f", "B", none, 1, "", 2, "h2x"⟩,
       ⟨"C", "class", "f", "C", none, 1, "", 2, "h3"⟩]
      (.ok [⟨some "A", some "h1", some "f"⟩, ⟨some "B", some "h2", some "f"⟩,
       ⟨some "D", some "hd", some "f"⟩])).toEmbed =
      [⟨"A", "class", "f", "A", none, 1, "", 2, "h1"⟩,
       ⟨"B", "class", "f", "B", none, 1, "", 2, "h2x"⟩,
       ⟨"C", "class", "f", "C", none, 1, "", 2, "h3"⟩].filter (fun s =>
        !hashUnchanged (runIndexing (fun s => s) (fun s => s) ["f"]
      [⟨"A", "class", "f", "A", none, 1, "", 2, "h1"⟩,
       ⟨"B", "class", "f", "B", none, 1, "", 2, "h2x"⟩,
       ⟨"C", "class", "f", "C", none, 1, "", 2, "h3"⟩]
      (.ok [⟨some "A", some "h1", some "f"⟩, ⟨some "B", some "h2", some "f"⟩,
       ⟨some "D", some "hd", some "f"⟩])).existingHashes s && isIndexableKind s) ∧
    (runIndexing (fun s => s) (fun s => s) ["f"]
      [⟨"A", "class", "f", "A", none, 1, "", 2, "h1"⟩,
       ⟨"B", "class", "f", "B", none, 1, "", 2, "h2x"⟩,
       ⟨"C", "class", "f", "C", none, 1, "", 2, "h3"⟩]
      (.ok [⟨some "A", some "h1", some "f"⟩, ⟨some "B", some "h2", some "f"⟩,
       ⟨some "D", some "hd", some "f"⟩])).changedSymbols =
      [⟨"A", "class", "f", "A", none, 1, "", 2, "h1"⟩,
       ⟨"B", "class", "f", "B", none, 1, "", 2, "h2x"⟩,
       ⟨"C", "class", "f", "C", none, 1, "", 2, "h3"⟩].filter (fun s =>
        !hashUnchanged (runIndexing (fun s => s) (fun s => s) ["f"]
      [⟨"A", "class", "f", "A", none, 1, "", 2, "h1"⟩,
       ⟨"B", "class", "f", "B", none, 1, "", 2, "h2x"⟩,
       ⟨"C", "class", "f", "C", none, 1, "", 2, "h3"⟩]
      (.ok [⟨some "A", some "h1", some "f"⟩, ⟨some "B", some "h2", some "f"⟩,
       ⟨some "D", some "hd", some "f"⟩])).existingHashes s && isIndexableKind s) ∧
    (runIndexing (fun s => s) (fun s => s) ["f"]
      [⟨"A", "class", "f", "A", none, 1, "", 2, "h1"⟩,
       ⟨"B", "class", "f", "B", none, 1, "", 2, "h2x"⟩,
       ⟨"C", "class", "f", "C", none, 1, "", 2, "h3"⟩]
      (.ok [⟨some "A", some "h1", some "f"⟩, ⟨some "B", some "h2", some "f"⟩,
       ⟨some "D", some "hd", some "f"⟩])).skippedCount =
      [⟨"A", "class", "f", "A", none, 1, "", 2, "h1"⟩,
       ⟨"B", "class", "f", "B", none, 1, "", 2, "h2x"⟩,
       ⟨"C", "class", "f", "C", none, 1, "", 2, "h3"⟩].countP (fun s =>
        hashUnchanged (runIndexing (fun s => s) (fun s => s) ["f"]
      [⟨"A", "class", "f", "A", none, 1, "", 2, "h1"⟩,
       ⟨"B", "class", "f", "B", none, 1, "", 2, "h2x"⟩,
       ⟨"C", "class", "f", "C", none, 1, "", 2, "h3"⟩]
      (.ok [⟨some "A", some "h1", some "f"⟩, ⟨some "B", some "h2", some "f"⟩,
       ⟨some "D", some "hd", some "f"⟩])).existingHashes s) ∧
    (∀ id, id ∈ (runIndexing (fun s => s) (fun s => s) ["f"]
      [⟨"A", "class", "f", "A", none, 1, "", 2, "h1"⟩,
       ⟨"B", "class", "f", "B", none, 1, "", 2, "h2x"⟩,
       ⟨"C", "class", "f", "C", none, 1, "", 2, "h3"⟩]
      (.ok [⟨some "A", some "h1", some "f"⟩, ⟨some "B", some "h2", some "f"⟩,
       ⟨some "D", some "hd", some "f"⟩])).deletedIds ↔
      ∃ f ∈ (["f"] : List String),
        id ∈ fileMapGet (buildExisting (fun s => s)
          [⟨some "A", some "h1", some "f"⟩, ⟨some "B", some "h2", some "f"⟩,
       ⟨some "D", some "hd", some "f"⟩]).2 f ∧
        id ∉ fileMapGet (currentByFile (fun s => s)
          [⟨"A", "class", "f", "A", none, 1, "", 2, "h1"⟩,
       ⟨"B", "class", "f", "B", none, 1, "", 2, "h2x"⟩,
       ⟨"C", "class", "f", "C", none, 1, "", 2, "h3"⟩]) f) ∧
    (runIndexing (fun s => s) (fun s => s) ["f"]
      [⟨"A", "class", "f", "A", none, 1, "", 2, "h1"⟩,
       ⟨"B", "class", "f", "B", none, 1, "", 2, "h2x"⟩,
       ⟨"C", "class", "f", "C", none, 1, "", 2, "h3"⟩]
      (.ok [⟨some "A", some "h1", some "f"⟩, ⟨some "B", some "h2", some "f"⟩,
       ⟨some "D", some "hd", some "f"⟩])).pointIdsToDelete =
      (runIndexing (fun s => s) (fun s => s) ["f"]
      [⟨"A", "class", "f", "A", none, 1, "", 2, "h1"⟩,
       ⟨"B", "class", "f", "B", none, 1, "", 2, "h2x"⟩,
       ⟨"C", "class", "f", "C", none, 1, "", 2, "h3"⟩]
      (.ok [⟨some "A", some "h1", some "f"⟩, ⟨some "B", some "h2", some "f"⟩,
       ⟨some "D", some "hd", some "f"⟩])).deletedIds.map
        (runIndexingPointId (fun s => s))) ∧
    (runIndexing (fun s => s) (fun s => s) ["f"]
      [⟨"A", "class", "f", "A", none, 1, "", 2, "h1"⟩,
       ⟨"B", "class", "f", "B", none, 1, "", 2, "h2x"⟩,
       ⟨"C", "class", "f", "C", none, 1, "", 2, "h3"⟩]
      (.ok [⟨some "A", some "h1", some "f"⟩, ⟨some "B", some "h2", some "f"⟩,
       ⟨some "D", some "hd", some "f"⟩])).toEmbed =
      [⟨"B", "class", "f", "B", none, 1, "", 2, "h2x"⟩,
       ⟨"C", "class", "f", "C", none, 1, "", 2, "h3"⟩] ∧
    (runIndexing (fun s => s) (fun s => s) ["f"]
      [⟨"A", "class", "f", "A", none, 1, "", 2, "h1"⟩,
       ⟨"B", "class", "f", "B", none, 1, "", 2, "h2x"⟩,
       ⟨"C", "class", "f", "C", none, 1, "", 2, "h3"⟩]
      (.ok [⟨some "A", some "h1", some "f"⟩, ⟨some "B", some "h2", some "f"⟩,
       ⟨some "D", some "hd", some "f"⟩])).deletedIds = ["D"] ∧
    (runIndexing (fun s => s) (fun s => s) ["f"]
      [⟨"A", "class", "f", "A", none, 1, "", 2, "h1"⟩,
       ⟨"B", "class", "f", "B", none, 1, "", 2, "h2x"⟩,
       ⟨"C", "class", "f", "C", none, 1, "", 2, "h3"⟩]
      (.ok [⟨some "A", some "h1", some "f"⟩, ⟨some "B", some "h2", some "f"⟩,
       ⟨some "D", some "hd", some "f"⟩])).skippedCount = 1 :=
  ⟨by decide,
    c3_classification (fun s => s) (fun s => s) ["f"]
      [⟨"A", "class", "f", "A", none, 1, "", 2, "h1"⟩,
       ⟨"B", "class", "f", "B", none, 1, "", 2, "h2x"⟩,
       ⟨"C", "class", "f", "C", none, 1, "", 2, "h3"⟩]
      [⟨some "A", some "h1", some "f"⟩, ⟨some "B", some "h2", some "f"⟩,
       ⟨some "D", some "hd", some "f"⟩] (by decide),
    by decide, by decide, by decide⟩

/-! ## C6: span hashing -/

/-- C6 (amended): the extractor hash is the digest of the `splitlines`
rejoin of the 1-indexed inclusive line span, so extracting an identical
rejoined span twice gives an identical hash, and for an injective digest
the hash changes exactly when that rejoined span text changes; the original
"changes iff the exact text of [start, end] changes" fails, because
`splitlines` normalizes every line-break style to the `"\n"` used by the
join, so a raw-text change such as `"\r"` to `"\n"` inside the span leaves
the hash unchanged. -/
theorem c6_span_hash (digest : List Char → String) (src src' : List Char)
    (lineno endLineno : Nat) (hinj : Function.Injective digest) :
    symbolContentHash digest src lineno endLineno =
        symbolContentHash digest src' lineno endLineno ↔
      spanSegment src lineno endLineno = spanSegment src' lineno endLineno := by
  unfold symbolContentHash
  exact ⟨fun h => hinj h, fun h => congrArg digest h⟩

/-- Counterexample to C6 as stated: two sources that differ by a single
character inside the span (a carriage return versus a newline on line 1)
produce the identical hash even for an injective digest, since `splitlines`
erases the distinction before the join. -/
theorem c6_span_hash_cex :
    ("a\rb").data ≠ ("a\nb").data ∧
    symbolContentHash (fun l => String.mk l) ("a\rb").data 1 2 =
      symbolContentHash (fun l => String.mk l) ("a\nb").data 1 2 := by
  decide

/-- Witness for C6: with the injective digest `String.mk`, hash equality at
two concrete sources coincides with equality of the rejoined spans. -/
theorem c6_span_hash_witness :
    Function.Injective (fun l => String.mk l) ∧
    (symbolContentHash (fun l => String.mk l) ("a\nb").data 1 2 =
        symbolContentHash (fun l => String.mk l) ("a\nc").data 1 2 ↔
      spanSegment ("a\nb").data 1 2 = spanSegment ("a\nc").data 1 2) :=
  ⟨fun x y h => by simpa using congrArg String.data h,
    c6_span_hash (fun l => String.mk l) ("a\nb").data ("a\nc").data 1 2
      (fun x y h => by simpa using congrArg String.data h)⟩
